import Mathlib

/-!
Shallow embedding of the `ingest` pipeline of the repository
(`src/ingest/utils_pdf.py`, `src/ingest/utils_db.py`, `src/ingest/main.py`)
and proofs about the claims of its specification.

Modelling conventions:
* Python strings are modelled as `List Char` (`Str` below); Python string
  indices are list positions.
* Python `\s` / `str.strip()` whitespace is modelled by the six ASCII
  whitespace characters (the inputs of interest contain no exotic Unicode
  whitespace); Python `\d` is modelled by the ASCII digits.
* The external collaborators (PyMuPDF, OpenAI, Supabase, hashlib) are
  black boxes, exactly as the specification declares them: their outputs
  (raw page blocks, embedding vectors, parsed chat JSON, insert results,
  hex digests) are inputs of the model, gathered in an `Env` record.
* Exceptions are modelled with `Except` / `Option` results; a raised
  exception is an `Except.error` value propagating to the caller.
-/

/-- Python strings are modelled as lists of characters. -/
abbrev Str := List Char

/-- Python whitespace (`\s`, `str.strip`), restricted to the ASCII
whitespace characters. -/
def pySpace (c : Char) : Bool :=
  c = ' ' || c = '\t' || c = '\n' || c = '\r' || c = '\x0b' || c = '\x0c'

/-- Python `str.strip()`: remove leading and trailing whitespace. -/
def pyStrip (s : Str) : Str :=
  ((s.dropWhile pySpace).reverse.dropWhile pySpace).reverse

/-- Python `page_text.split('\n')` (`utils_pdf.py` line 104): split on every
newline, keeping empty pieces; the result is never empty. -/
def splitNL : Str → List Str
  | [] => [[]]
  | c :: rest =>
    if c = '\n' then [] :: splitNL rest
    else
      match splitNL rest with
      | [] => [[c]]
      | l :: ls => (c :: l) :: ls

/-- Consume a literal prefix, returning the remaining characters. -/
def dropLit (lit s : Str) : Option Str :=
  if lit.isPrefixOf s then some (s.drop lit.length) else none

/-- Exactly the check `\d{4}` performed at the end of the law-title
pattern: the next four characters exist and are digits (the pattern ends
there, so nothing is required after them). -/
def fourDigits : Str → Bool
  | a :: b :: c :: d :: _ => a.isDigit && b.isDigit && c.isDigit && d.isDigit
  | _ => false

/-- The tail `[^\d]*–\d{4}` of the law-title regex
(`utils_pdf.py` line 99).  With backtracking, it succeeds exactly when
some en dash is reachable through non-digits and is followed by four
digits; a digit stops the scan because `[^\d]` cannot match it. -/
def dashDigits : Str → Bool
  | [] => false
  | c :: rest => (c = '–' && fourDigits rest) || (!c.isDigit && dashDigits rest)

/-- The part `,\s+התש[^\d]*–\d{4}` of the law-title regex after the first
comma has been consumed: at least one whitespace character, the literal
`התש`, then `dashDigits`.  (`\s+` is greedy and `ה` is not whitespace, so
consuming all whitespace is faithful.) -/
def lawTitleTail (u : Str) : Bool :=
  match u with
  | [] => false
  | c :: _ =>
    pySpace c &&
      (match dropLit "התש".data (u.dropWhile pySpace) with
       | none => false
       | some v => dashDigits v)

/-- `re.match(law_title_pattern, s)` viewed as a Boolean, for
`law_title_pattern = r'^חוק\s+[^,]+,\s+התש[^\d]*–\d{4}'`
(`utils_pdf.py` line 99).

After the literal `חוק`, the segment `\s+[^,]+,` matches (with
backtracking) exactly when the next character is whitespace and the first
comma of the remaining text sits at index at least 2: `[^,]` accepts
every non-comma character (whitespace included), so the comma consumed by
the pattern is necessarily the first one, preceded by one whitespace
character and at least one further non-comma character. -/
def lawTitleMatch (s : Str) : Bool :=
  match dropLit "חוק".data s with
  | none => false
  | some t =>
    match t with
    | [] => false
    | c :: _ =>
      pySpace c &&
        (let j := t.findIdx (· = ',')
         decide (j < t.length) && decide (2 ≤ j) && lawTitleTail (t.drop (j + 1)))

/-- Group 1 of `re.match(r'^חוק\s+([^,]+)', s)` (`utils_pdf.py`
lines 114 and 131), before the `.strip()` that the code applies to it.

The greedy `\s+` first takes all leading whitespace after `חוק`; if the
following character exists and is not a comma, the group is everything up
to the first comma (or the end).  Otherwise the engine backtracks to
leave one whitespace character for `[^,]+`, which is possible exactly
when there are at least two whitespace characters; the group is then that
single last whitespace character. -/
def lawNameExtract (s : Str) : Option Str :=
  match dropLit "חוק".data s with
  | none => none
  | some t =>
    match t with
    | [] => none
    | c :: _ =>
      if pySpace c then
        let rest := t.dropWhile pySpace
        match rest with
        | d :: _ =>
          if d = ',' then
            ((t.takeWhile pySpace).drop 1).getLast?.map (fun e => [e])
          else some (rest.takeWhile (· ≠ ','))
        | [] => ((t.takeWhile pySpace).drop 1).getLast?.map (fun e => [e])
      else none

/-- The character class `[א-ת0-9]` (`utils_pdf.py` lines 102 and 118). -/
def hebOrDigit (c : Char) : Bool := ('א' ≤ c && c ≤ 'ת') || c.isDigit

/-- The optional group `(\([א-ת0-9]+\))?`: the matched text when the
parenthesised form is present, `[]` when the optional group matches
empty.  The inner `[א-ת0-9]+` is greedy and `)` is outside the class, so
matching is deterministic. -/
def parenPart (v : Str) : Str :=
  match v with
  | '(' :: w =>
    let inner := w.takeWhile hebOrDigit
    if inner ≠ [] && (w.drop inner.length).head? = some ')' then
      '(' :: (inner ++ [')'])
    else []
  | _ => []

/-- Group 0 of `re.match(section_pattern, line)` for
`section_pattern = r'^סעיף\s*\d+(\([א-ת0-9]+\))?'` (`utils_pdf.py`
lines 102 and 125): the literal `סעיף`, greedy whitespace, at least one
digit, then the optional parenthesised part. -/
def sectionLineMatch (s : Str) : Option Str :=
  match dropLit "סעיף".data s with
  | none => none
  | some t =>
    let sps := t.takeWhile pySpace
    let u := t.drop sps.length
    let ds := u.takeWhile (·.isDigit)
    if ds = [] then none
    else some ("סעיף".data ++ (sps ++ (ds ++ parenPart (u.drop ds.length))))

/-- The same pattern matched at one fixed position, returning group 1
(`\d+(\([א-ת0-9]+\))?`, without the literal and the whitespace). -/
def sectionAt (s : Str) : Option Str :=
  match dropLit "סעיף".data s with
  | none => none
  | some t =>
    let u := t.dropWhile pySpace
    let ds := u.takeWhile (·.isDigit)
    if ds = [] then none else some (ds ++ parenPart (u.drop ds.length))

/-- `re.search(r'סעיף\s*(\d+(\([א-ת0-9]+\))?)', text)` returning group 1
(`utils_pdf.py` line 118): the match at the leftmost position where the
whole pattern matches. -/
def sectionSearch : Str → Option Str
  | [] => none
  | c :: rest =>
    match sectionAt (c :: rest) with
    | some g => some g
    | none => sectionSearch rest

/-- The characters `'0'`–`'9'` (used to model Python decimal formatting). -/
def digitCharOf : Nat → Char
  | 0 => '0' | 1 => '1' | 2 => '2' | 3 => '3' | 4 => '4'
  | 5 => '5' | 6 => '6' | 7 => '7' | 8 => '8' | 9 => '9'
  | _ + 10 => '?'

/-- Fuel-driven decimal rendering of a natural number (big endian).  The
fuel is always at least the number, so the fuel-0 branch is reached only
with a single digit left. -/
def decDigitsGo (fuel : Nat) (n : Nat) : List Char :=
  match fuel with
  | 0 => [digitCharOf n]
  | fuel + 1 =>
    if n < 10 then [digitCharOf n]
    else decDigitsGo fuel (n / 10) ++ [digitCharOf (n % 10)]

/-- Python `f"{n}"` for a natural number: its decimal digits. -/
def decDigits (n : Nat) : List Char := decDigitsGo n n

/-- Python `f"{i:02d}"` for a natural number: the decimal digits,
zero-padded on the left to width 2. -/
def pad2 (i : Nat) : Str := if i < 10 then '0' :: decDigits i else decDigits i

/-- Numeric value of a digit character. -/
def digitVal (c : Char) : Nat := c.toNat - 48

/-- Value of a big-endian digit string. -/
def decVal (s : List Char) : Nat := s.foldl (fun a c => 10 * a + digitVal c) 0

/-- Python `f"{n}"` for integers (used for `str()` of JSON numbers). -/
def intDecimal (n : Int) : Str :=
  if n < 0 then '-' :: decDigits n.natAbs else decDigits n.natAbs

/-- Bounding box of a text block, after the `int()` conversions applied in
`extract_page_blocks` (`utils_pdf.py` lines 46-49); the truncation of the
library's floating-point geometry happens outside the model. -/
structure BBox where
  left : Int
  top : Int
  right : Int
  bottom : Int
deriving DecidableEq

/-- A block dict as produced by `extract_page_blocks`
(`utils_pdf.py` lines 42-51). -/
structure Block where
  block_id : Str
  text : Str
  bbox : BBox
deriving DecidableEq

/-- A block dict after `compute_char_offsets` added the `char_start` and
`char_end` fields (`utils_pdf.py` lines 77-83). -/
structure OBlock extends Block where
  char_start : Nat
  char_end : Nat
deriving DecidableEq

/-- A raw block of `page.get_text("blocks")`: the PDF library is a black
box producing these 7-tuples `(x0, y0, x1, y1, text, block_no,
block_type)`; the `block_no` entry is never read by the code and is
omitted, and the coordinates are carried opaquely.  The guard
`len(block) >= 5` of `utils_pdf.py` line 35 always holds for these
7-tuples. -/
structure RawBlock where
  x0 : Int
  y0 : Int
  x1 : Int
  y1 : Int
  text : Str
  block_type : Int
deriving DecidableEq

/-- The block id `f"p{page_num}-b{i:02d}"` (`utils_pdf.py` line 40). -/
def blockId (page_num i : Nat) : Str :=
  'p' :: (decDigits page_num ++ ('-' :: 'b' :: pad2 i))

/-- `extract_page_blocks` (`utils_pdf.py` lines 17-54), as a function of
the raw blocks delivered by the PDF library: keep the text blocks
(`block_type == 0`) whose stripped text is non-empty, in order, labelling
each with the id built from its enumeration index; the full page text is
delivered separately by the library and is returned unchanged, so it is
not part of this function. -/
def extract_page_blocks (raws : List RawBlock) (page_num : Nat) : List Block :=
  (raws.enum.filter
      (fun p => decide (p.2.block_type = 0) && decide (pyStrip p.2.text ≠ []))).map
    (fun p =>
      { block_id := blockId page_num p.1, text := pyStrip p.2.text,
        bbox := ⟨p.2.x0, p.2.y0, p.2.x1, p.2.y1⟩ })

/-- `text.isPrefixOf (full.drop i)`: the needle occurs at position `i`. -/
def occursAtB (full text : Str) (i : Nat) : Bool := text.isPrefixOf (full.drop i)

/-- Scan positions `i, i+1, ...` (`fuel` of them) for the first occurrence
of the needle. -/
def strFindFrom (full text : Str) : Nat → Nat → Option Nat
  | _, 0 => none
  | i, fuel + 1 =>
    if occursAtB full text i then some i else strFindFrom full text (i + 1) fuel

/-- Python `full.find(text, start)` (`utils_pdf.py` line 74), with the
missing-result case as `none`: the least position `start ≤ i ≤ len(full)`
where `text` occurs, scanning left to right. -/
def strFind (full text : Str) (start : Nat) : Option Nat :=
  strFindFrom full text start (full.length + 1 - start)

/-- The loop body of `compute_char_offsets` (`utils_pdf.py` lines 68-84),
with the running `current_pos` made explicit. -/
def computeOffsetsGo : List Block → Str → Nat → List OBlock
  | [], _, _ => []
  | b :: rest, full, pos =>
    match strFind full b.text pos with
    | some s =>
      { toBlock := b, char_start := s, char_end := s + b.text.length } ::
        computeOffsetsGo rest full (s + b.text.length)
    | none =>
      { toBlock := b, char_start := pos, char_end := pos + b.text.length } ::
        computeOffsetsGo rest full (pos + b.text.length)

/-- `compute_char_offsets` (`utils_pdf.py` lines 57-86). -/
def compute_char_offsets (blocks : List Block) (full_page_text : Str) : List OBlock :=
  computeOffsetsGo blocks full_page_text 0

/-- The law-title branch of the scan loop of `derive_section_hint`
(`utils_pdf.py` lines 112-122), for one stripped line: when the line
matches the law-title pattern and the name extraction succeeds, the hint
is `חוק {name}`, with ` §{n}` appended when the unanchored section search
finds a section number anywhere in the page text. -/
def lawBranchHint (page_text line : Str) : Option Str :=
  if lawTitleMatch line then
    match lawNameExtract line with
    | some nm =>
      let law_name := pyStrip nm
      match sectionSearch page_text with
      | some sec => some ("חוק ".data ++ (law_name ++ (" §".data ++ sec)))
      | none => some ("חוק ".data ++ law_name)
    | none => none
  else none

/-- The section branch of the scan loop (`utils_pdf.py` lines 125-135),
for one stripped line.  The lookup `re.search(law_title_pattern,
page_text)` on line 129 uses a pattern anchored with `^` and no
`MULTILINE` flag, so it matches exactly when the page text itself starts
with a law title; its group 0 then starts at position 0 and contains the
first comma, so extracting `^חוק\s+([^,]+)` from that group 0 coincides
with extracting it from the whole page text. -/
def sectionBranchHint (page_text line : Str) : Option Str :=
  match sectionLineMatch line with
  | some sec =>
    some
      (if lawTitleMatch page_text then
        match lawNameExtract page_text with
        | some nm => "חוק ".data ++ (pyStrip nm ++ (" §".data ++ sec))
        | none => sec
      else sec)
  | none => none

/-- The scan loop of `derive_section_hint` (`utils_pdf.py` lines
106-135): strip each line in order (an empty line matches neither
pattern, which is the `continue`), try the law-title branch, then the
section branch of the same line, and return the first hint produced. -/
def firstHint (page_text : Str) : List Str → Option Str
  | [] => none
  | l :: ls =>
    match lawBranchHint page_text (pyStrip l) with
    | some h => some h
    | none =>
      match sectionBranchHint page_text (pyStrip l) with
      | some h => some h
      | none => firstHint page_text ls

/-- The fallback loop of `derive_section_hint` (`utils_pdf.py` lines
138-141): the first line with non-empty stripped content. -/
def firstNonEmptyLine : List Str → Option Str
  | [] => none
  | l :: ls => if pyStrip l = [] then firstNonEmptyLine ls else some (pyStrip l)

/-- `derive_section_hint` (`utils_pdf.py` lines 89-143).  The `blocks`
parameter of the Python function is never used by its body. -/
def derive_section_hint (page_text : Str) (_blocks : List OBlock) : Str :=
  match firstHint page_text (splitNL page_text) with
  | some h => h
  | none =>
    match firstNonEmptyLine (splitNL page_text) with
    | some t => t.take 60
    | none => "הספר".data

/-- Modelled from the claim's words: "a law title occurs anywhere in the
page text" — some line of the page text, once stripped, matches the
law-title pattern; the law name is extracted (and stripped) from the
first such line. -/
def claimLawNameAnywhere (page_text : Str) : Option Str :=
  ((splitNL page_text).map pyStrip).findSome?
    (fun l => if lawTitleMatch l then (lawNameExtract l).map pyStrip else none)

/-- Modelled from the claim's words, section branch: the result is the
matched section, prefixed with the law name when a law title occurs
anywhere in the page text. -/
def claimSectionHint (page_text line : Str) : Option Str :=
  match sectionLineMatch line with
  | some sec =>
    some
      (match claimLawNameAnywhere page_text with
       | some nm => "חוק ".data ++ (nm ++ (" §".data ++ sec))
       | none => sec)
  | none => none

/-- Modelled from the claim C1's words: scan the lines top to bottom,
skipping blank lines; a line matching the law-title pattern yields the
law name with `§N` appended when a section number occurs anywhere in the
page text; otherwise a line matching the section pattern yields that
section, prefixed with the law name when a law title occurs anywhere in
the page text; otherwise the first non-empty line truncated to 60
characters. -/
def derive_section_hint_claim (page_text : Str) (_blocks : List OBlock) : Str :=
  let lines := splitNL page_text
  match
    lines.findSome? (fun l =>
      let line := pyStrip l
      match lawBranchHint page_text line with
      | some h => some h
      | none => claimSectionHint page_text line)
  with
  | some h => h
  | none =>
    match lines.findSome? (fun l => if pyStrip l = [] then none else some (pyStrip l)) with
    | some t => t.take 60
    | none => "הספר".data

/-- The claim C1 as amended: identical to `derive_section_hint_claim`
except that in the section branch the law-name prefix is attached exactly
when the anchored law-title search succeeds, i.e. when the page text
itself starts with a law-title match (the name being extracted from the
start of the page text). -/
def derive_section_hint_amended (page_text : Str) (_blocks : List OBlock) : Str :=
  let lines := splitNL page_text
  match
    lines.findSome? (fun l =>
      let line := pyStrip l
      match lawBranchHint page_text line with
      | some h => some h
      | none => sectionBranchHint page_text line)
  with
  | some h => h
  | none =>
    match lines.findSome? (fun l => if pyStrip l = [] then none else some (pyStrip l)) with
    | some t => t.take 60
    | none => "הספר".data

/-- An embedding vector.  The pipeline never computes with the float
entries, it only carries them from the embedding call to the insert, so
the entries are modelled opaquely as integers. -/
abbrev Emb := List Int

/-- An exception value (the Python exception object, carried opaquely). -/
structure Err where
  code : Nat
deriving DecidableEq

/-- A JSON number, as an exact fraction `num / den` (`den` positive for
every value `json.loads` can produce): JSON integers have `den = 1`, and
every JSON float — an IEEE double — is such a fraction, e.g. 3.5 is
`⟨7, 2⟩`.  The pipeline performs no arithmetic on these values; its only
numeric operation is the chained comparison `0 <= x < 4` of the
validation, which `jnumInRange4` models exactly on fractions. -/
structure JNum where
  num : Int
  den : Nat
deriving DecidableEq, Repr

/-- The Python chained comparison `0 <= x < 4` on a JSON number
`num / den` with positive `den`: `0 ≤ num / den` iff `0 ≤ num`, and
`num / den < 4` iff `num < 4 · den`. -/
def jnumInRange4 (q : JNum) : Bool :=
  decide (0 ≤ q.num) && decide (q.num < 4 * (q.den : Int))

/-- A parsed JSON value, as returned by `json.loads` on the chat output.
Numbers (integers and floats) are carried as exact fractions and
booleans separately, since Python compares both against integers;
objects and null are lumped into `other`, the code never distinguishing
them further. -/
inductive JVal where
  | jstr : Str → JVal
  | jnum : JNum → JVal
  | jbool : Bool → JVal
  | jarr : List JVal → JVal
  | other : JVal

mutual

/-- Decidable equality for `JVal` (the nested occurrence of `List JVal`
prevents the automatic derivation). -/
def jvalDecEq : (a b : JVal) → Decidable (a = b)
  | .jstr s, .jstr t =>
    match decEq s t with
    | isTrue h => isTrue (congrArg JVal.jstr h)
    | isFalse h => isFalse (fun e => h (JVal.jstr.inj e))
  | .jnum a, .jnum b =>
    match decEq a b with
    | isTrue h => isTrue (congrArg JVal.jnum h)
    | isFalse h => isFalse (fun e => h (JVal.jnum.inj e))
  | .jbool a, .jbool b =>
    match decEq a b with
    | isTrue h => isTrue (congrArg JVal.jbool h)
    | isFalse h => isFalse (fun e => h (JVal.jbool.inj e))
  | .jarr xs, .jarr ys =>
    match jvalListDecEq xs ys with
    | isTrue h => isTrue (congrArg JVal.jarr h)
    | isFalse h => isFalse (fun e => h (JVal.jarr.inj e))
  | .other, .other => isTrue rfl
  | .jstr _, .jnum _ => isFalse (fun e => JVal.noConfusion e)
  | .jstr _, .jbool _ => isFalse (fun e => JVal.noConfusion e)
  | .jstr _, .jarr _ => isFalse (fun e => JVal.noConfusion e)
  | .jstr _, .other => isFalse (fun e => JVal.noConfusion e)
  | .jnum _, .jstr _ => isFalse (fun e => JVal.noConfusion e)
  | .jnum _, .jbool _ => isFalse (fun e => JVal.noConfusion e)
  | .jnum _, .jarr _ => isFalse (fun e => JVal.noConfusion e)
  | .jnum _, .other => isFalse (fun e => JVal.noConfusion e)
  | .jbool _, .jstr _ => isFalse (fun e => JVal.noConfusion e)
  | .jbool _, .jnum _ => isFalse (fun e => JVal.noConfusion e)
  | .jbool _, .jarr _ => isFalse (fun e => JVal.noConfusion e)
  | .jbool _, .other => isFalse (fun e => JVal.noConfusion e)
  | .jarr _, .jstr _ => isFalse (fun e => JVal.noConfusion e)
  | .jarr _, .jnum _ => isFalse (fun e => JVal.noConfusion e)
  | .jarr _, .jbool _ => isFalse (fun e => JVal.noConfusion e)
  | .jarr _, .other => isFalse (fun e => JVal.noConfusion e)
  | .other, .jstr _ => isFalse (fun e => JVal.noConfusion e)
  | .other, .jnum _ => isFalse (fun e => JVal.noConfusion e)
  | .other, .jbool _ => isFalse (fun e => JVal.noConfusion e)
  | .other, .jarr _ => isFalse (fun e => JVal.noConfusion e)

/-- Decidable equality for lists of `JVal`. -/
def jvalListDecEq : (xs ys : List JVal) → Decidable (xs = ys)
  | [], [] => isTrue rfl
  | [], _ :: _ => isFalse (fun e => List.noConfusion e)
  | _ :: _, [] => isFalse (fun e => List.noConfusion e)
  | x :: xs, y :: ys =>
    match jvalDecEq x y, jvalListDecEq xs ys with
    | isTrue h1, isTrue h2 => isTrue (by rw [h1, h2])
    | isFalse h1, _ => isFalse (fun e => h1 (List.cons.inj e).1)
    | isTrue _, isFalse h2 => isFalse (fun e => h2 (List.cons.inj e).2)

end

instance : DecidableEq JVal := jvalDecEq

/-- The values that Python's chained comparison `0 <= x < 4` lets
through (`utils_db.py` line 144): numbers whose fraction lies in
`[0, 4)`, and booleans — `bool` is an `int` subclass in Python, with
`False = 0` and `True = 1`, both in `[0, 4)`, so every boolean passes.
Any other value makes the comparison raise `TypeError`, which the
surrounding `try` of `generate_mcq_for_block` catches, yielding `None`
there. -/
def validCorrectIndex : JVal → Bool
  | JVal.jnum q => jnumInRange4 q
  | JVal.jbool _ => true
  | _ => false

/-- The parsed chat output restricted to the keys the code reads
(`stem`, `options`, `correct_index`, `explanation`); `none` models an
absent key. -/
structure ChatJson where
  stem : Option JVal
  options : Option JVal
  correct_index : Option JVal
  explanation : Option JVal
deriving DecidableEq

/-- A row of the `legal_blocks` table (`utils_db.py` lines 63-76). -/
structure BlockRow where
  doc_id : Str
  page_sha : Str
  page_number : Nat
  block_id : Str
  text : Str
  section_hint : Str
  bbox_left : Int
  bbox_top : Int
  bbox_right : Int
  bbox_bottom : Int
  embedding : Emb
deriving DecidableEq

/-- A row of the `generated_questions` table (`utils_db.py` lines
196-208). -/
structure QRow where
  doc_id : Str
  page : Nat
  block_id : Str
  question : Str
  ref_title : Str
  ref_note : Str
  choices : JVal
  correct_index : JVal
  explanation : JVal
  source_block_sha : Str
deriving DecidableEq

/-- A block dict at upsert time: the extracted block together with the
offsets, the section hint and the embedding attached in
`main.py` lines 52-69. -/
structure FBlock where
  block_id : Str
  text : Str
  bbox : BBox
  char_start : Nat
  char_end : Nat
  section_hint : Str
  embedding : Emb
deriving DecidableEq

/-- The environment of external calls: the embedding provider, the chat
provider combined with `json.loads` (a raised exception or malformed JSON
on either side is an `error`), the outcomes of the two Supabase inserts,
and the SHA-256 hex digest of `hashlib` as an opaque function.  The
Supabase select of the idempotency check is read from the modelled table
state and is assumed not to raise. -/
structure Env where
  embed : List Str → Except Err (List Emb)
  chat : Str → Except Err ChatJson
  insertBlocksRes : List BlockRow → Except Err Unit
  insertQsRes : List QRow → Except Err Unit
  sha256hex : Str → Str

/-- The record built for one block in `upsert_blocks` (`utils_db.py`
lines 63-77). -/
def blockRecord (b : FBlock) (doc_id page_sha : Str) (page_number : Nat) : BlockRow :=
  { doc_id := doc_id, page_sha := page_sha, page_number := page_number,
    block_id := b.block_id, text := b.text, section_hint := b.section_hint,
    bbox_left := b.bbox.left, bbox_top := b.bbox.top,
    bbox_right := b.bbox.right, bbox_bottom := b.bbox.bottom,
    embedding := b.embedding }

/-- `upsert_blocks` (`utils_db.py` lines 44-82) as a transformer of the
`legal_blocks` table state: skip everything when a row with the same
`doc_id`, `page_number` and `page_sha` exists; otherwise insert the
records (no call is made when the record list is empty). -/
def upsert_blocks (env : Env) (tbl : List BlockRow) (blocks : List FBlock)
    (doc_id : Str) (page_number : Nat) (page_sha : Str) :
    Except Err (List BlockRow) :=
  if tbl.any (fun r =>
      decide (r.doc_id = doc_id) && decide (r.page_number = page_number) &&
        decide (r.page_sha = page_sha)) then
    Except.ok tbl
  else
    match blocks.map (fun b => blockRecord b doc_id page_sha page_number) with
    | [] => Except.ok tbl
    | r :: rs =>
      match env.insertBlocksRes (r :: rs) with
      | Except.error e => Except.error e
      | Except.ok _ => Except.ok (tbl ++ (r :: rs))

/-- `generate_mcq_for_block` (`utils_db.py` lines 85-152).  The chat call
and `json.loads` sit inside the try block, so an `error` outcome of the
oracle is caught and yields `None`; the validation checks mirror lines
136-148: key presence, `isinstance(options, list)` with length 4, and
the chained comparison `0 <= correct_index < 4`, which passes any number
or boolean in `[0, 4)` — non-integer floats such as 3.5 included — while
a non-numeric value raises `TypeError` inside the try block and
therefore also yields `None` (`validCorrectIndex`). -/
def generate_mcq_for_block (env : Env) (block_text : Str)
    (_section_hint : Str) (_page_number : Nat) : Option ChatJson :=
  match env.chat block_text with
  | Except.error _ => none
  | Except.ok mcq =>
    match mcq.stem, mcq.options, mcq.correct_index with
    | some _, some opts, some ci =>
      match opts with
      | JVal.jarr xs =>
        if xs.length = 4 then
          if validCorrectIndex ci then some mcq else none
        else none
      | _ => none
    | _, _, _ => none

/-- Python `str()` of a parsed JSON value, as used by the f-string of
`compose_question_with_reference`.  Strings, integer-valued numbers and
booleans are rendered faithfully; the decimal rendering of non-integer
floats and the element-wise rendering of lists are not modelled (no
claim constrains the question string) and use markers. -/
def pyStrOfJVal : JVal → Str
  | JVal.jstr s => s
  | JVal.jnum q => if q.den = 1 then intDecimal q.num else '#' :: []
  | JVal.jbool b => if b then "True".data else "False".data
  | JVal.jarr _ => '[' :: [']']
  | JVal.other => []

/-- The dict returned by `compose_question_with_reference`
(`utils_db.py` lines 174-181). -/
structure QComposed where
  question : Str
  ref_title : Str
  ref_note : Str
  choices : JVal
  correct_index : JVal
  explanation : JVal
deriving DecidableEq

/-- `compose_question_with_reference` (`utils_db.py` lines 155-181).
`section_hint or "הספר"` falls back on the empty string; the subscript
accesses `mcq['stem']`, `mcq['options']` and `mcq['correct_index']` raise
`KeyError` on an absent key, which is the `none` result (in the pipeline
the argument has been validated, so this never happens);
`mcq.get('explanation', '')` defaults to the empty string. -/
def composeRefTitle (section_hint : Str) : Str :=
  if section_hint = [] then "הספר".data else section_hint

def compose_question_with_reference (mcq : ChatJson) (section_hint : Str)
    (page_number : Nat) : Option QComposed :=
  match mcq.stem, mcq.options, mcq.correct_index with
  | some st, some opts, some ci =>
    some
      { question := pyStrOfJVal st ++
          (" (ראו: ".data ++ (composeRefTitle section_hint ++ [')'])),
        ref_title := composeRefTitle section_hint,
        ref_note := "עמ׳ ".data ++ decDigits page_number,
        choices := opts,
        correct_index := ci,
        explanation := (mcq.explanation).getD (JVal.jstr []) }
  | _, _, _ => none

/-- The record built for one question in `insert_generated_questions`
(`utils_db.py` lines 196-209). -/
def qRecord (q : QComposed) (doc_id : Str) (page : Nat)
    (block_id source_block_sha : Str) : QRow :=
  { doc_id := doc_id, page := page, block_id := block_id,
    question := q.question, ref_title := q.ref_title, ref_note := q.ref_note,
    choices := q.choices, correct_index := q.correct_index,
    explanation := q.explanation, source_block_sha := source_block_sha }

/-- `insert_generated_questions` (`utils_db.py` lines 184-214) as a
transformer of the `generated_questions` table state: build the records
and insert them (despite the comment in the source, the insert is a plain
insert; no call is made when the record list is empty). -/
def insert_generated_questions (env : Env) (tbl : List QRow)
    (questions : List QComposed) (doc_id : Str) (page : Nat)
    (block_id source_block_sha : Str) : Except Err (List QRow) :=
  let records := questions.map (fun q => qRecord q doc_id page block_id source_block_sha)
  match records with
  | [] => Except.ok tbl
  | _ :: _ =>
    match env.insertQsRes records with
    | Except.error e => Except.error e
    | Except.ok _ => Except.ok (tbl ++ records)

/-- An external call observed while processing a page, in the order the
calls are issued (used to state the stage-ordering claims). -/
inductive Ev where
  | embedCall : List Str → Ev
  | upsertCall : Ev
  | chatCall : Str → Ev
  | insertQCall : Str → Ev
deriving DecidableEq, Repr

/-- What the black-box PDF library delivers for one page: the SHA of its
raw dictionary (`compute_page_sha`), the raw blocks of
`page.get_text("blocks")` and the full page text of `page.get_text()`. -/
structure PageData where
  page_sha : Str
  rawBlocks : List RawBlock
  full_text : Str
deriving DecidableEq

/-- The persistent store: the two Supabase tables. -/
structure DBState where
  legal_blocks : List BlockRow
  generated_questions : List QRow
deriving DecidableEq

/-- Result of processing one page: the store afterwards, the exception
caught by the page-level handler (if any), and the trace of external
calls made. -/
structure PageOut where
  db : DBState
  err : Option Err
  trace : List Ev
deriving DecidableEq

/-- The exception object of a `KeyError` raised by
`compose_question_with_reference` on an unvalidated dict (never reached
in the pipeline). -/
def keyErrorExc : Err := ⟨0⟩

/-- The exception object of the `IndexError` raised by `embeddings[i]`
(`main.py` line 69) when the embedding call returned fewer vectors than
there are blocks. -/
def indexErrorExc : Err := ⟨1⟩

/-- Attaching the section hint and the embeddings to the offset blocks
(`main.py` lines 59-69); with at least as many embeddings as blocks the
`zip` keeps every block, extra embeddings are ignored. -/
def attachAll (obs : List OBlock) (hint : Str) (embs : List Emb) : List FBlock :=
  (obs.zip embs).map fun p =>
    { block_id := p.1.toBlock.block_id, text := p.1.toBlock.text,
      bbox := p.1.toBlock.bbox, char_start := p.1.char_start,
      char_end := p.1.char_end, section_hint := hint, embedding := p.2 }

/-- The MCQ-generation loop of `main.py` lines 80-105: for every suitable
block, call the chat model (one `chatCall` event each, the call happening
inside `generate_mcq_for_block` whether or not it fails); on a validated
result, compose the question and collect the row carrying the block id
and the SHA-256 of the block text.  The third component is the exception
aborting the page, raisable here only by the unreachable `KeyError` of
the composition. -/
def mcqLoop (env : Env) (doc_id : Str) (hint : Str) (page_num : Nat) :
    List FBlock → List QRow × List Ev × Option Err
  | [] => ([], [], none)
  | b :: rest =>
    match generate_mcq_for_block env b.text hint page_num with
    | none =>
      ((mcqLoop env doc_id hint page_num rest).1,
        Ev.chatCall b.text :: (mcqLoop env doc_id hint page_num rest).2.1,
        (mcqLoop env doc_id hint page_num rest).2.2)
    | some mcq =>
      match compose_question_with_reference mcq hint page_num with
      | none => ([], [Ev.chatCall b.text], some keyErrorExc)
      | some qc =>
        (qRecord qc doc_id page_num b.block_id (env.sha256hex b.text) ::
            (mcqLoop env doc_id hint page_num rest).1,
          Ev.chatCall b.text :: (mcqLoop env doc_id hint page_num rest).2.1,
          (mcqLoop env doc_id hint page_num rest).2.2)

/-- The question-insert loop of `main.py` lines 110-117: one call of
`insert_generated_questions` with a singleton list per question; a failed
insert raises, aborting the page with the earlier inserts kept. -/
def insertQLoop (env : Env) (tbl : List QRow) : List QRow → List QRow × List Ev × Option Err
  | [] => (tbl, [], none)
  | q :: rest =>
    match env.insertQsRes [q] with
    | Except.error e => (tbl, [Ev.insertQCall q.block_id], some e)
    | Except.ok _ =>
      ((insertQLoop env (tbl ++ [q]) rest).1,
        Ev.insertQCall q.block_id :: (insertQLoop env (tbl ++ [q]) rest).2.1,
        (insertQLoop env (tbl ++ [q]) rest).2.2)

/-- The blocks extracted for one page (`main.py` line 44). -/
def pageBlocks (pd : PageData) (page_num : Nat) : List Block :=
  extract_page_blocks pd.rawBlocks page_num

/-- The blocks after the offset computation (`main.py` line 52). -/
def pageOBlocks (pd : PageData) (page_num : Nat) : List OBlock :=
  compute_char_offsets (pageBlocks pd page_num) pd.full_text

/-- The section hint of the page (`main.py` line 55). -/
def pageHint (pd : PageData) (page_num : Nat) : Str :=
  derive_section_hint pd.full_text (pageOBlocks pd page_num)

/-- The block texts sent to the embedding call (`main.py` line 63). -/
def pageTexts (pd : PageData) (page_num : Nat) : List Str :=
  (pageOBlocks pd page_num).map (fun b => b.toBlock.text)

/-- The blocks with section hint and embeddings attached
(`main.py` lines 59-69). -/
def pageFBlocks (pd : PageData) (page_num : Nat) (embs : List Emb) : List FBlock :=
  attachAll (pageOBlocks pd page_num) (pageHint pd page_num) embs

/-- The suitable blocks, 150 to 1200 characters (`main.py` line 77). -/
def pageSuitable (pd : PageData) (page_num : Nat) (embs : List Emb) : List FBlock :=
  (pageFBlocks pd page_num embs).filter
    (fun b => decide (150 ≤ b.text.length) && decide (b.text.length ≤ 1200))

/-- The body of the per-page `try` block of `main` (`main.py` lines
36-126), for one page: extract the blocks (skip the page when there are
none), compute the offsets, derive the section hint, attach it, call the
embedding provider (an error propagates to the page handler, as does the
`IndexError` when too few vectors come back), upsert the blocks, generate
the MCQs for the suitable blocks, and insert the collected questions. -/
def processPage (env : Env) (db : DBState) (pd : PageData) (doc_id : Str)
    (page_num : Nat) : PageOut :=
  match pageBlocks pd page_num with
  | [] => ⟨db, none, []⟩
  | _ :: _ =>
    match env.embed (pageTexts pd page_num) with
    | Except.error e => ⟨db, some e, [Ev.embedCall (pageTexts pd page_num)]⟩
    | Except.ok embs =>
      if embs.length < (pageOBlocks pd page_num).length then
        ⟨db, some indexErrorExc, [Ev.embedCall (pageTexts pd page_num)]⟩
      else
        match upsert_blocks env db.legal_blocks (pageFBlocks pd page_num embs)
            doc_id page_num pd.page_sha with
        | Except.error e =>
          ⟨db, some e, [Ev.embedCall (pageTexts pd page_num), Ev.upsertCall]⟩
        | Except.ok tbl2 =>
          match (mcqLoop env doc_id (pageHint pd page_num) page_num
              (pageSuitable pd page_num embs)).2.2 with
          | some e =>
            ⟨⟨tbl2, db.generated_questions⟩, some e,
              Ev.embedCall (pageTexts pd page_num) :: Ev.upsertCall ::
                (mcqLoop env doc_id (pageHint pd page_num) page_num
                  (pageSuitable pd page_num embs)).2.1⟩
          | none =>
            ⟨⟨tbl2,
                (insertQLoop env db.generated_questions
                  (mcqLoop env doc_id (pageHint pd page_num) page_num
                    (pageSuitable pd page_num embs)).1).1⟩,
              (insertQLoop env db.generated_questions
                (mcqLoop env doc_id (pageHint pd page_num) page_num
                  (pageSuitable pd page_num embs)).1).2.2,
              Ev.embedCall (pageTexts pd page_num) :: Ev.upsertCall ::
                ((mcqLoop env doc_id (pageHint pd page_num) page_num
                    (pageSuitable pd page_num embs)).2.1 ++
                  (insertQLoop env db.generated_questions
                    (mcqLoop env doc_id (pageHint pd page_num) page_num
                      (pageSuitable pd page_num embs)).1).2.1)⟩

/-- The page loop of `main` (`main.py` lines 33-126): every page is
processed in order; an exception caught by the per-page handler is
recorded and the loop continues with the next page on the store produced
so far. -/
def ingest (env : Env) (doc_id : Str) (db : DBState) :
    List (Nat × PageData) → DBState × List (Option Err)
  | [] => (db, [])
  | (pn, pd) :: rest =>
    let out := processPage env db pd doc_id pn
    let r := ingest env doc_id out.db rest
    (r.1, out.err :: r.2)

/-- The block text occurs at position `j` of the full page text, in the
sense of Python `str.find`: `j` is a valid start position and the text is
a prefix of the remainder. -/
def occAt (full text : Str) (j : Nat) : Prop :=
  j ≤ full.length ∧ occursAtB full text j = true

instance (full text : Str) (j : Nat) : Decidable (occAt full text j) := by
  unfold occAt; infer_instance

/-- Placeholder block used with `List.getD`. -/
def bDummy : Block := ⟨[], [], ⟨0, 0, 0, 0⟩⟩

/-- Placeholder offset block used with `List.getD`. -/
def oDummy : OBlock := ⟨bDummy, 0, 0⟩

/-- The scan position with which the `compute_char_offsets` loop reaches
index `i`, read off the output: the initial position for the first block,
the previous block's `char_end` afterwards (the loop leaves `current_pos`
at the previous block's `char_end` in both branches). -/
def entryPos (out : List OBlock) (p i : Nat) : Nat :=
  if i = 0 then p else (out.getD (i - 1) oDummy).char_end

/-- The claim C2, at one index of the output: the block is carried over;
`char_end` is `char_start` plus the text length; when the text occurs at
or after the scan position, `char_start` is the first such occurrence and
the slice of the page text there equals the block text; otherwise
`char_start` is the scan position itself. -/
def GreedyOffsetsAt (blocks : List Block) (full : Str) (out : List OBlock)
    (p i : Nat) : Prop :=
  let b := blocks.getD i bDummy
  let ob := out.getD i oDummy
  let pos := entryPos out p i
  ob.toBlock = b ∧
  ob.char_end = ob.char_start + b.text.length ∧
  ((∃ j, pos ≤ j ∧ occAt full b.text j) →
     pos ≤ ob.char_start ∧ occAt full b.text ob.char_start ∧
       (∀ j, pos ≤ j → occAt full b.text j → ob.char_start ≤ j) ∧
       (full.drop ob.char_start).take b.text.length = b.text) ∧
  ((¬ ∃ j, pos ≤ j ∧ occAt full b.text j) → ob.char_start = pos)

/-- A concrete block used by the witnesses. -/
def wBlock : Block := ⟨['b', '0'], ['a', 'b'], ⟨0, 0, 0, 0⟩⟩

/-- A concrete environment used by witnesses: the embedding call returns
one empty vector per text, the chat call raises, the inserts succeed, the
hash is the identity. -/
def wEnv : Env :=
  { embed := fun ts => Except.ok (ts.map (fun _ => [])),
    chat := fun _ => Except.error ⟨2⟩,
    insertBlocksRes := fun _ => Except.ok (),
    insertQsRes := fun _ => Except.ok (),
    sha256hex := fun s => s }

/-- A concrete stored row used by witnesses. -/
def wRow : BlockRow :=
  { doc_id := ['d'], page_sha := ['s'], page_number := 1, block_id := ['b'],
    text := ['t'], section_hint := [], bbox_left := 0, bbox_top := 0,
    bbox_right := 0, bbox_bottom := 0, embedding := [] }

/-- A concrete block-at-upsert-time used by witnesses. -/
def wFBlock : FBlock :=
  { block_id := ['b'], text := ['t'], bbox := ⟨0, 0, 0, 0⟩, char_start := 0,
    char_end := 1, section_hint := [], embedding := [] }

/-- The validated chat output returned by the witness environment. -/
def wChat : ChatJson :=
  { stem := some (JVal.jstr ['q']),
    options := some (JVal.jarr [JVal.jstr ['a'], JVal.jstr ['b'],
      JVal.jstr ['c'], JVal.jstr ['d']]),
    correct_index := some (JVal.jnum ⟨1, 1⟩),
    explanation := none }

/-- A witness environment whose chat call returns a valid MCQ. -/
def wEnv2 : Env :=
  { embed := fun ts => Except.ok (ts.map (fun _ => [])),
    chat := fun _ => Except.ok wChat,
    insertBlocksRes := fun _ => Except.ok (),
    insertQsRes := fun _ => Except.ok (),
    sha256hex := fun s => s }

/-- A chat output whose `correct_index` is the float 3.5 (the fraction
7/2), which the chained comparison `0 <= x < 4` accepts. -/
def wChatF : ChatJson :=
  { stem := some (JVal.jstr ['q']),
    options := some (JVal.jarr [JVal.jstr ['a'], JVal.jstr ['b'],
      JVal.jstr ['c'], JVal.jstr ['d']]),
    correct_index := some (JVal.jnum ⟨7, 2⟩),
    explanation := none }

/-- An environment whose chat call returns the float-indexed MCQ. -/
def wEnvF : Env :=
  { embed := fun ts => Except.ok (ts.map (fun _ => [])),
    chat := fun _ => Except.ok wChatF,
    insertBlocksRes := fun _ => Except.ok (),
    insertQsRes := fun _ => Except.ok (),
    sha256hex := fun s => s }

/-- A 150-character block text (the minimum suitable length). -/
def wText : Str := List.replicate 150 'a'

/-- A witness page with one suitable block. -/
def wPage : PageData :=
  { page_sha := ['s'], rawBlocks := [⟨0, 0, 1, 1, wText, 0⟩], full_text := wText }

/-- The empty store. -/
def db0 : DBState := ⟨[], []⟩

/-- Placeholder question row used with `List.getD`. -/
def qDummy : QRow :=
  { doc_id := [], page := 0, block_id := [], question := [], ref_title := [],
    ref_note := [], choices := JVal.other, correct_index := JVal.other,
    explanation := JVal.other, source_block_sha := [] }

/-- An environment whose embedding call raises. -/
def wEnv3 : Env :=
  { embed := fun _ => Except.error ⟨3⟩, chat := fun _ => Except.ok wChat,
    insertBlocksRes := fun _ => Except.ok (), insertQsRes := fun _ => Except.ok (),
    sha256hex := fun s => s }

/-- An environment whose block insert raises. -/
def wEnv4 : Env :=
  { embed := fun ts => Except.ok (ts.map (fun _ => [])),
    chat := fun _ => Except.ok wChat,
    insertBlocksRes := fun _ => Except.error ⟨4⟩,
    insertQsRes := fun _ => Except.ok (), sha256hex := fun s => s }

/-- An environment whose question insert raises. -/
def wEnv5 : Env :=
  { embed := fun ts => Except.ok (ts.map (fun _ => [])),
    chat := fun _ => Except.ok wChat,
    insertBlocksRes := fun _ => Except.ok (),
    insertQsRes := fun _ => Except.error ⟨5⟩, sha256hex := fun s => s }

/-- The embeddings the witness environments return for the witness page. -/
def wEmbs : List Emb := (pageTexts wPage 1).map (fun _ => [])


theorem strFindFrom_some {full text : Str} {i fuel s : Nat}
    (h : strFindFrom full text i fuel = some s) :
    i ≤ s ∧ s < i + fuel ∧ occursAtB full text s = true ∧
      ∀ j, i ≤ j → j < s → occursAtB full text j = false := by
  induction fuel generalizing i with
  | zero => simp [strFindFrom] at h
  | succ fuel ih =>
    rw [strFindFrom] at h
    by_cases hc : occursAtB full text i = true
    · rw [if_pos hc] at h
      cases h
      exact ⟨Nat.le_refl _, by omega, hc, fun j h1 h2 => absurd (Nat.lt_of_le_of_lt h1 h2) (by omega)⟩
    · rw [if_neg hc] at h
      obtain ⟨h1, h2, h3, h4⟩ := ih h
      refine ⟨by omega, by omega, h3, fun j hj1 hj2 => ?_⟩
      rcases Nat.eq_or_lt_of_le hj1 with rfl | hj
      · exact Bool.eq_false_iff.mpr hc
      · exact h4 j hj hj2

theorem strFindFrom_none {full text : Str} {i fuel : Nat}
    (h : strFindFrom full text i fuel = none) :
    ∀ j, i ≤ j → j < i + fuel → occursAtB full text j = false := by
  induction fuel generalizing i with
  | zero => omega
  | succ fuel ih =>
    rw [strFindFrom] at h
    by_cases hc : occursAtB full text i = true
    · rw [if_pos hc] at h; cases h
    · rw [if_neg hc] at h
      intro j hj1 hj2
      rcases Nat.eq_or_lt_of_le hj1 with rfl | hj
      · exact Bool.eq_false_iff.mpr hc
      · exact ih h j hj (by omega)

theorem strFind_some {full text : Str} {start s : Nat}
    (h : strFind full text start = some s) :
    start ≤ s ∧ s ≤ full.length ∧ occursAtB full text s = true ∧
      ∀ j, start ≤ j → j < s → occursAtB full text j = false := by
  obtain ⟨h1, h2, h3, h4⟩ := strFindFrom_some h
  exact ⟨h1, by omega, h3, h4⟩

theorem strFind_none {full text : Str} {start : Nat}
    (h : strFind full text start = none) :
    ∀ j, start ≤ j → j ≤ full.length → occursAtB full text j = false := by
  intro j hj1 hj2
  exact strFindFrom_none h j hj1 (by omega)

theorem occAt_iff {full text : Str} {j : Nat} :
    occAt full text j ↔ (j ≤ full.length ∧ occursAtB full text j = true) :=
  Iff.rfl

theorem occursAtB_slice {full text : Str} {j : Nat}
    (h : occursAtB full text j = true) :
    (full.drop j).take text.length = text :=
  (List.prefix_iff_eq_take.mp (List.isPrefixOf_iff_prefix.mp h)).symm

theorem computeOffsetsGo_length (blocks : List Block) (full : Str) (p : Nat) :
    (computeOffsetsGo blocks full p).length = blocks.length := by
  induction blocks generalizing p with
  | nil => rfl
  | cons b rest ih =>
    rw [computeOffsetsGo]
    cases strFind full b.text p <;> simp [ih]


theorem entryPos_zero (out : List OBlock) (p : Nat) : entryPos out p 0 = p := rfl

theorem entryPos_cons (ob : OBlock) (out : List OBlock) (p k : Nat) :
    entryPos (ob :: out) p (k + 1) = entryPos out ob.char_end k := by
  cases k with
  | zero => simp [entryPos]
  | succ m => simp [entryPos]


theorem computeOffsetsGo_greedy (blocks : List Block) (full : Str) :
    ∀ p i, i < blocks.length →
      GreedyOffsetsAt blocks full (computeOffsetsGo blocks full p) p i := by
  induction blocks with
  | nil => intro p i hi; simp at hi
  | cons b rest ih =>
    intro p i hi
    cases hF : strFind full b.text p with
    | some s =>
      obtain ⟨h1, h2, h3, h4⟩ := strFind_some hF
      cases i with
      | zero =>
        simp only [GreedyOffsetsAt, computeOffsetsGo, hF, entryPos_zero,
          List.getD_cons_zero]
        refine ⟨trivial, trivial, fun _ => ⟨h1, ⟨h2, h3⟩, ?_, occursAtB_slice h3⟩,
          fun hno => absurd ⟨s, h1, h2, h3⟩ hno⟩
        intro j hj hocc
        by_contra hlt
        have hfls := h4 j hj (by omega)
        rw [hocc.2] at hfls
        cases hfls
      | succ k =>
        have hk : k < rest.length := by simpa using hi
        have IH := ih (s + b.text.length) k hk
        simp only [GreedyOffsetsAt, computeOffsetsGo, hF] at IH ⊢
        rw [entryPos_cons]
        simpa using IH
    | none =>
      have hn := strFind_none hF
      cases i with
      | zero =>
        simp only [GreedyOffsetsAt, computeOffsetsGo, hF, entryPos_zero,
          List.getD_cons_zero]
        refine ⟨trivial, trivial, ?_, fun _ => trivial⟩
        intro hex
        obtain ⟨j, hj, hocc⟩ := hex
        have hfls := hn j hj hocc.1
        rw [hocc.2] at hfls
        cases hfls
      | succ k =>
        have hk : k < rest.length := by simpa using hi
        have IH := ih (p + b.text.length) k hk
        simp only [GreedyOffsetsAt, computeOffsetsGo, hF] at IH ⊢
        rw [entryPos_cons]
        simpa using IH

theorem computeOffsetsGo_end_eq (blocks : List Block) (full : Str) :
    ∀ p, ∀ ob ∈ computeOffsetsGo blocks full p,
      ob.char_end = ob.char_start + ob.toBlock.text.length := by
  induction blocks with
  | nil => intro p ob h; simp [computeOffsetsGo] at h
  | cons b rest ih =>
    intro p ob h
    cases hF : strFind full b.text p <;> rw [computeOffsetsGo, hF] at h <;>
      rcases List.mem_cons.mp h with h2 | h2
    · cases h2; rfl
    · exact ih _ ob h2
    · cases h2; rfl
    · exact ih _ ob h2

theorem computeOffsetsGo_start_ge (blocks : List Block) (full : Str) :
    ∀ p, ∀ ob ∈ computeOffsetsGo blocks full p, p ≤ ob.char_start := by
  induction blocks with
  | nil => intro p ob h; simp [computeOffsetsGo] at h
  | cons b rest ih =>
    intro p ob h
    cases hF : strFind full b.text p <;> rw [computeOffsetsGo, hF] at h <;>
      rcases List.mem_cons.mp h with h2 | h2
    · cases h2; rfl
    · exact Nat.le_trans (Nat.le_add_right p _) (ih _ ob h2)
    · cases h2; exact (strFind_some hF).1
    · have hs := (strFind_some hF).1
      exact Nat.le_trans (Nat.le_trans hs (Nat.le_add_right _ _)) (ih _ ob h2)

theorem computeOffsetsGo_pairwise (blocks : List Block) (full : Str) :
    ∀ p, (computeOffsetsGo blocks full p).Pairwise
      (fun a b => a.char_end ≤ b.char_start) := by
  induction blocks with
  | nil => intro p; simp [computeOffsetsGo]
  | cons b rest ih =>
    intro p
    cases hF : strFind full b.text p <;> rw [computeOffsetsGo, hF] <;>
      refine List.Pairwise.cons ?_ (ih _) <;> intro ob hob
    · exact computeOffsetsGo_start_ge rest full _ ob hob
    · exact computeOffsetsGo_start_ge rest full _ ob hob

/-- C2: `compute_char_offsets` reconciles offsets greedily left to right:
the output has one entry per block, carrying the block over; at each
index, with the scan position entering that block (0 for the first block,
the previous block's `char_end` afterwards), if the block text occurs in
the page text at or after the scan position then `char_start` is the
first such occurrence, `char_end` is `char_start` plus the text length
and the slice of the page text there equals the block text; otherwise
`char_start` is the scan position itself and `char_end` again advances by
the text length. -/
theorem compute_char_offsets_greedy_reconciliation (blocks : List Block)
    (full_page_text : Str) (i : Nat) (hi : i < blocks.length) :
    (compute_char_offsets blocks full_page_text).length = blocks.length ∧
      GreedyOffsetsAt blocks full_page_text
        (compute_char_offsets blocks full_page_text) 0 i :=
  ⟨computeOffsetsGo_length blocks full_page_text 0,
   computeOffsetsGo_greedy blocks full_page_text 0 i hi⟩


/-- Witness for `compute_char_offsets_greedy_reconciliation` at a
concrete block list and page text. -/
theorem compute_char_offsets_greedy_reconciliation_witness :
    (compute_char_offsets [wBlock] "xyabz".data).length = 1 ∧
      GreedyOffsetsAt [wBlock] "xyabz".data
        (compute_char_offsets [wBlock] "xyabz".data) 0 0 :=
  compute_char_offsets_greedy_reconciliation [wBlock] "xyabz".data 0 (by decide)

/-- C9: after `compute_char_offsets`, every output block satisfies
`char_end - char_start = length of its text` (indeed `char_end =
char_start + length`), and the `[char_start, char_end)` intervals are
ordered and pairwise non-overlapping: every later block's `char_start` is
at least every earlier block's `char_end`. -/
theorem compute_char_offsets_invariants (blocks : List Block)
    (full_page_text : Str) :
    (∀ ob ∈ compute_char_offsets blocks full_page_text,
        ob.char_end - ob.char_start = ob.toBlock.text.length ∧
          ob.char_end = ob.char_start + ob.toBlock.text.length) ∧
      (compute_char_offsets blocks full_page_text).Pairwise
        (fun a b => a.char_end ≤ b.char_start) := by
  refine ⟨fun ob hob => ?_, computeOffsetsGo_pairwise blocks full_page_text 0⟩
  have h := computeOffsetsGo_end_eq blocks full_page_text 0 ob hob
  omega

/-- Witness for `compute_char_offsets_invariants` at a concrete input. -/
theorem compute_char_offsets_invariants_witness :
    ((compute_char_offsets [wBlock] "xyabz".data).getD 0 oDummy).char_end -
        ((compute_char_offsets [wBlock] "xyabz".data).getD 0 oDummy).char_start =
      ((compute_char_offsets [wBlock] "xyabz".data).getD 0 oDummy).toBlock.text.length :=
  ((compute_char_offsets_invariants [wBlock] "xyabz".data).1 _ (by decide)).1

theorem digitVal_digitCharOf {k : Nat} (h : k < 10) :
    digitVal (digitCharOf k) = k := by
  interval_cases k <;> rfl

theorem decVal_append_digit (xs : List Char) (c : Char) :
    decVal (xs ++ [c]) = 10 * decVal xs + digitVal c := by
  simp [decVal]

theorem decVal_decDigitsGo :
    ∀ fuel n, n ≤ fuel ∨ n < 10 → decVal (decDigitsGo fuel n) = n := by
  intro fuel
  induction fuel with
  | zero =>
    intro n h
    have hn : n < 10 := by omega
    show decVal [digitCharOf n] = n
    simp [decVal, digitVal_digitCharOf hn]
  | succ fuel ih =>
    intro n h
    by_cases hn : n < 10
    · rw [decDigitsGo, if_pos hn]
      simp [decVal, digitVal_digitCharOf hn]
    · rw [decDigitsGo, if_neg hn, decVal_append_digit]
      have hdiv : n / 10 < n := Nat.div_lt_self (by omega) (by omega)
      rw [ih (n / 10) (Or.inl (by omega))]
      rw [digitVal_digitCharOf (Nat.mod_lt n (by omega))]
      omega

theorem decVal_decDigits (n : Nat) : decVal (decDigits n) = n :=
  decVal_decDigitsGo n n (Or.inl (Nat.le_refl n))

theorem decVal_cons_zero (s : List Char) : decVal ('0' :: s) = decVal s := rfl

theorem decVal_pad2 (n : Nat) : decVal (pad2 n) = n := by
  by_cases h : n < 10
  · rw [pad2, if_pos h, decVal_cons_zero, decVal_decDigits]
  · rw [pad2, if_neg h, decVal_decDigits]

theorem pad2_inj {i j : Nat} (h : pad2 i = pad2 j) : i = j := by
  have h2 := congrArg decVal h
  rwa [decVal_pad2, decVal_pad2] at h2

theorem blockId_inj (pn : Nat) {i j : Nat} (h : blockId pn i = blockId pn j) :
    i = j := by
  unfold blockId at h
  have h1 := (List.cons.inj h).2
  have h2 := List.append_cancel_left h1
  have h3 := (List.cons.inj (List.cons.inj h2).2).2
  exact pad2_inj h3

theorem dropWhile_head_false {p : Char → Bool} :
    ∀ {l : List Char} {c : Char} {t : List Char},
      List.dropWhile p l = c :: t → p c = false := by
  intro l
  induction l with
  | nil => intro c t h; cases h
  | cons d rest ih =>
    intro c t h
    rw [List.dropWhile_cons] at h
    by_cases hd : p d = true
    · rw [if_pos hd] at h
      exact ih h
    · rw [if_neg hd] at h
      cases h
      exact Bool.eq_false_iff.mpr hd

theorem pyStrip_eq_rdrop (s : Str) :
    pyStrip s = List.rdropWhile pySpace (s.dropWhile pySpace) := rfl

/-- `str.strip()` is idempotent. -/
theorem pyStrip_idem (s : Str) : pyStrip (pyStrip s) = pyStrip s := by
  rw [pyStrip_eq_rdrop, pyStrip_eq_rdrop]
  have hfix : List.dropWhile pySpace (List.rdropWhile pySpace (s.dropWhile pySpace)) =
      List.rdropWhile pySpace (s.dropWhile pySpace) := by
    rcases hb : List.rdropWhile pySpace (s.dropWhile pySpace) with _ | ⟨c, t⟩
    · rfl
    · have hpre : List.rdropWhile pySpace (s.dropWhile pySpace) <+: s.dropWhile pySpace :=
        List.rdropWhile_prefix _ _
      rw [hb] at hpre
      obtain ⟨u, hu⟩ := hpre
      have hsc : s.dropWhile pySpace = c :: (t ++ u) := by
        rw [← hu]; rfl
      have hc : pySpace c = false := dropWhile_head_false hsc
      rw [List.dropWhile_cons, hc]
      simp
  rw [hfix, List.rdropWhile_idempotent]

theorem extract_page_blocks_ids_nodup (raws : List RawBlock) (page_num : Nat) :
    ((extract_page_blocks raws page_num).map (fun b => b.block_id)).Nodup := by
  have hinj : Function.Injective (blockId page_num) := fun a b hab => blockId_inj page_num hab
  have h1 : ((raws.enum.filter
      (fun p => decide (p.2.block_type = 0) && decide (pyStrip p.2.text ≠ []))).map
        Prod.fst).Nodup :=
    (List.nodup_enum_map_fst raws).sublist ((List.filter_sublist _).map Prod.fst)
  have h2 := h1.map hinj
  rw [List.map_map] at h2
  unfold extract_page_blocks
  rw [List.map_map]
  exact h2

/-- Membership description of `extract_page_blocks`: every output block
comes from an enumerated raw block passing the filter. -/
theorem extract_page_blocks_mem {raws : List RawBlock} {page_num : Nat} {b : Block}
    (hb : b ∈ extract_page_blocks raws page_num) :
    ∃ p, p ∈ raws.enum ∧ p.2.block_type = 0 ∧ pyStrip p.2.text ≠ [] ∧
      b.block_id = blockId page_num p.1 ∧ b.text = pyStrip p.2.text := by
  unfold extract_page_blocks at hb
  obtain ⟨p, hp, hpb⟩ := List.mem_map.mp hb
  have hpf := List.mem_filter.mp hp
  refine ⟨p, hpf.1, ?_, ?_, ?_, ?_⟩
  · have := hpf.2
    simp only [Bool.and_eq_true, decide_eq_true_eq] at this
    exact this.1
  · have := hpf.2
    simp only [Bool.and_eq_true, decide_eq_true_eq] at this
    exact this.2
  · rw [← hpb]
  · rw [← hpb]

/-- C10: `extract_page_blocks` returns blocks with pairwise-distinct
`block_id` values (each formed from the raw block's enumeration index),
so the id identifies at most one extracted block, and every returned
block's text is stripped (a fixed point of `strip`) and non-empty. -/
theorem extract_page_blocks_invariants (raws : List RawBlock) (page_num : Nat) :
    ((extract_page_blocks raws page_num).map (fun b => b.block_id)).Pairwise (· ≠ ·) ∧
      ∀ b ∈ extract_page_blocks raws page_num,
        b.text ≠ [] ∧ pyStrip b.text = b.text ∧
          ∃ p, p ∈ raws.enum ∧ b.block_id = blockId page_num p.1 := by
  refine ⟨extract_page_blocks_ids_nodup raws page_num, fun b hb => ?_⟩
  obtain ⟨p, hp, _, hne, hid, htext⟩ := extract_page_blocks_mem hb
  refine ⟨by rw [htext]; exact hne, ?_, p, hp, hid⟩
  rw [htext, pyStrip_idem]

/-- Witness for `extract_page_blocks_invariants` at a concrete raw
block list. -/
theorem extract_page_blocks_invariants_witness :
    ((extract_page_blocks [⟨0, 0, 1, 1, " ab ".data, 0⟩] 1).getD 0 bDummy).text ≠ [] ∧
      pyStrip ((extract_page_blocks [⟨0, 0, 1, 1, " ab ".data, 0⟩] 1).getD 0 bDummy).text =
        ((extract_page_blocks [⟨0, 0, 1, 1, " ab ".data, 0⟩] 1).getD 0 bDummy).text ∧
      ∃ p, p ∈ ([⟨0, 0, 1, 1, " ab ".data, 0⟩] : List RawBlock).enum ∧
        ((extract_page_blocks [⟨0, 0, 1, 1, " ab ".data, 0⟩] 1).getD 0 bDummy).block_id =
          blockId 1 p.1 :=
  (extract_page_blocks_invariants [⟨0, 0, 1, 1, " ab ".data, 0⟩] 1).2 _ (by decide)

theorem firstHint_eq_findSome (pt : Str) (ls : List Str) :
    firstHint pt ls = ls.findSome? (fun l =>
      match lawBranchHint pt (pyStrip l) with
      | some h => some h
      | none => sectionBranchHint pt (pyStrip l)) := by
  induction ls with
  | nil => rfl
  | cons l ls ih =>
    rw [firstHint, List.findSome?_cons]
    cases hlaw : lawBranchHint pt (pyStrip l) with
    | some h => simp [hlaw]
    | none =>
      cases hsec : sectionBranchHint pt (pyStrip l) with
      | some h => simp [hlaw, hsec]
      | none => simp [hlaw, hsec, ih]

theorem firstNonEmptyLine_eq_findSome (ls : List Str) :
    firstNonEmptyLine ls =
      ls.findSome? (fun l => if pyStrip l = [] then none else some (pyStrip l)) := by
  induction ls with
  | nil => rfl
  | cons l ls ih =>
    rw [firstNonEmptyLine, List.findSome?_cons]
    by_cases h : pyStrip l = [] <;> simp [h, ih]

/-- C1, counterexample: on the page whose first line is `סעיף 5` and
whose second line is a law title, the code returns the bare section
(the anchored law-title search fails at position 0), while the claim,
which attaches the law-name prefix whenever a law title occurs anywhere
in the page text, predicts the prefixed hint. -/
theorem derive_section_hint_claim_counterexample :
    derive_section_hint "סעיף 5\nחוק המכר, התשכח–1968".data [] ≠
      derive_section_hint_claim "סעיף 5\nחוק המכר, התשכח–1968".data [] := by
  decide

/-- C1 as amended: `derive_section_hint` derives the hint by ordered
regex priority over the stripped lines, where in the section branch the
law-name prefix is attached exactly when the law-title pattern matches at
the start of the page text (the anchored search), the name being
extracted there. -/
theorem derive_section_hint_amended_agrees (page_text : Str)
    (blocks : List OBlock) :
    derive_section_hint page_text blocks =
      derive_section_hint_amended page_text blocks := by
  unfold derive_section_hint derive_section_hint_amended
  simp only [firstHint_eq_findSome, firstNonEmptyLine_eq_findSome]

theorem lawBranchHint_ne_nil {pt line h : Str}
    (hh : lawBranchHint pt line = some h) : h ≠ [] := by
  unfold lawBranchHint at hh
  by_cases ht : lawTitleMatch line = true
  · rw [if_pos ht] at hh
    cases hnm : lawNameExtract line with
    | none => rw [hnm] at hh; cases hh
    | some nm =>
      rw [hnm] at hh
      cases hs : sectionSearch pt with
      | some sec =>
        rw [hs] at hh
        cases hh
        simp
      | none =>
        rw [hs] at hh
        cases hh
        simp
  · rw [if_neg ht] at hh; cases hh

theorem sectionLineMatch_ne_nil {line sec : Str}
    (hs : sectionLineMatch line = some sec) : sec ≠ [] := by
  unfold sectionLineMatch at hs
  split at hs
  · cases hs
  · rename_i t heq
    have hs2 : (if ((t.drop (t.takeWhile pySpace).length).takeWhile (fun c => c.isDigit)) = []
        then (none : Option Str)
        else some ("סעיף".data ++ ((t.takeWhile pySpace) ++
          (((t.drop (t.takeWhile pySpace).length).takeWhile (fun c => c.isDigit)) ++
            parenPart ((t.drop (t.takeWhile pySpace).length).drop
              ((t.drop (t.takeWhile pySpace).length).takeWhile (fun c => c.isDigit)).length))))) =
        some sec := hs
    split at hs2
    · cases hs2
    · cases hs2
      simp

theorem sectionBranchHint_ne_nil {pt line h : Str}
    (hh : sectionBranchHint pt line = some h) : h ≠ [] := by
  unfold sectionBranchHint at hh
  split at hh
  · rename_i sec hs
    cases hh
    split
    · split
      · simp
      · exact sectionLineMatch_ne_nil hs
    · exact sectionLineMatch_ne_nil hs
  · cases hh

theorem lawBranchHint_nil (pt : Str) : lawBranchHint pt [] = none := rfl

theorem sectionBranchHint_nil (pt : Str) : sectionBranchHint pt [] = none := rfl

theorem firstHint_ne_nil {pt : Str} {ls : List Str} {h : Str}
    (hh : firstHint pt ls = some h) : h ≠ [] := by
  induction ls with
  | nil => cases hh
  | cons l ls ih =>
    rw [firstHint] at hh
    cases hlaw : lawBranchHint pt (pyStrip l) with
    | some g =>
      rw [hlaw] at hh
      cases hh
      exact lawBranchHint_ne_nil hlaw
    | none =>
      rw [hlaw] at hh
      cases hsec : sectionBranchHint pt (pyStrip l) with
      | some g =>
        rw [hsec] at hh
        cases hh
        exact sectionBranchHint_ne_nil hsec
      | none =>
        rw [hsec] at hh
        exact ih hh

theorem firstNonEmptyLine_ne_nil {ls : List Str} {t : Str}
    (h : firstNonEmptyLine ls = some t) : t ≠ [] := by
  induction ls with
  | nil => cases h
  | cons l ls ih =>
    rw [firstNonEmptyLine] at h
    by_cases hl : pyStrip l = []
    · rw [if_pos hl] at h
      exact ih h
    · rw [if_neg hl] at h
      cases h
      exact hl

theorem firstHint_none_of_blank {pt : Str} {ls : List Str}
    (hb : ∀ l ∈ ls, pyStrip l = []) : firstHint pt ls = none := by
  induction ls with
  | nil => rfl
  | cons l ls ih =>
    rw [firstHint, hb l (List.mem_cons_self l ls), lawBranchHint_nil,
      sectionBranchHint_nil]
    exact ih (fun x hx => hb x (List.mem_cons_of_mem l hx))

theorem firstNonEmptyLine_none_of_blank {ls : List Str}
    (hb : ∀ l ∈ ls, pyStrip l = []) : firstNonEmptyLine ls = none := by
  induction ls with
  | nil => rfl
  | cons l ls ih =>
    rw [firstNonEmptyLine, hb l (List.mem_cons_self l ls), if_pos rfl]
    exact ih (fun x hx => hb x (List.mem_cons_of_mem l hx))

/-- C8: `derive_section_hint` always returns a non-empty string, and on a
page with no non-empty line it returns the constant fallback `הספר`. -/
theorem derive_section_hint_total_nonempty (page_text : Str)
    (blocks : List OBlock) :
    derive_section_hint page_text blocks ≠ [] ∧
      ((∀ l ∈ splitNL page_text, pyStrip l = []) →
        derive_section_hint page_text blocks = "הספר".data) := by
  constructor
  · unfold derive_section_hint
    cases hf : firstHint page_text (splitNL page_text) with
    | some h =>
      simp only [hf]
      exact firstHint_ne_nil hf
    | none =>
      simp only [hf]
      cases hn : firstNonEmptyLine (splitNL page_text) with
      | some t =>
        simp only [hn]
        have ht := firstNonEmptyLine_ne_nil hn
        cases t with
        | nil => exact absurd rfl ht
        | cons c cs => simp
      | none =>
        simp only [hn]
        decide
  · intro hb
    unfold derive_section_hint
    rw [firstHint_none_of_blank hb, firstNonEmptyLine_none_of_blank hb]

/-- Witness for `derive_section_hint_total_nonempty`: a page of one blank
line and one whitespace line falls through to `הספר`. -/
theorem derive_section_hint_total_nonempty_witness :
    derive_section_hint ['\n', ' '] [] = "הספר".data :=
  (derive_section_hint_total_nonempty ['\n', ' '] []).2 (by decide)

/-- C3: if rows for the same `(doc_id, page_number)` with the same
`page_sha` already exist, `upsert_blocks` performs no insert and leaves
the stored table unchanged; and re-running the upsert on the table it
produced (the unchanged-page re-ingestion, under any insert outcomes)
stores nothing a second time. -/
theorem upsert_blocks_idempotent (env env2 : Env) (tbl : List BlockRow)
    (blocks : List FBlock) (doc_id : Str) (page_number : Nat) (page_sha : Str) :
    ((∃ r ∈ tbl, r.doc_id = doc_id ∧ r.page_number = page_number ∧
        r.page_sha = page_sha) →
      upsert_blocks env tbl blocks doc_id page_number page_sha = Except.ok tbl) ∧
      (∀ tbl2, upsert_blocks env tbl blocks doc_id page_number page_sha = Except.ok tbl2 →
        upsert_blocks env2 tbl2 blocks doc_id page_number page_sha = Except.ok tbl2) := by
  constructor
  · rintro ⟨r, hr, h1, h2, h3⟩
    unfold upsert_blocks
    have hany : tbl.any (fun r => decide (r.doc_id = doc_id) &&
        decide (r.page_number = page_number) && decide (r.page_sha = page_sha)) = true :=
      List.any_eq_true.mpr ⟨r, hr, by simp [h1, h2, h3]⟩
    rw [if_pos hany]
  · intro tbl2 h
    unfold upsert_blocks at h ⊢
    by_cases hany : tbl.any (fun r => decide (r.doc_id = doc_id) &&
        decide (r.page_number = page_number) && decide (r.page_sha = page_sha)) = true
    · rw [if_pos hany] at h
      cases h
      rw [if_pos hany]
    · rw [if_neg hany] at h
      cases blocks with
      | nil =>
        simp only [List.map_nil] at h
        cases h
        rw [if_neg hany]
        simp
      | cons b bs =>
        simp only [List.map_cons] at h
        cases hres : env.insertBlocksRes (blockRecord b doc_id page_sha page_number ::
            bs.map (fun x => blockRecord x doc_id page_sha page_number)) with
        | error e =>
          rw [hres] at h
          cases h
        | ok u =>
          rw [hres] at h
          cases h
          have hnew : (tbl ++ (blockRecord b doc_id page_sha page_number ::
              bs.map (fun x => blockRecord x doc_id page_sha page_number))).any
                (fun r => decide (r.doc_id = doc_id) &&
                  decide (r.page_number = page_number) &&
                  decide (r.page_sha = page_sha)) = true := by
            apply List.any_eq_true.mpr
            exact ⟨blockRecord b doc_id page_sha page_number,
              List.mem_append.mpr (Or.inr (List.mem_cons_self _ _)),
              by simp [blockRecord]⟩
          rw [if_pos hnew]




/-- Witness for `upsert_blocks_idempotent`: with a matching row present
the upsert is the identity, and re-running an upsert that inserted is the
identity on its result. -/
theorem upsert_blocks_idempotent_witness :
    upsert_blocks wEnv [wRow] [wFBlock] ['d'] 1 ['s'] = Except.ok [wRow] ∧
      upsert_blocks wEnv [blockRecord wFBlock ['d'] ['s'] 1] [wFBlock] ['d'] 1 ['s'] =
        Except.ok [blockRecord wFBlock ['d'] ['s'] 1] :=
  ⟨(upsert_blocks_idempotent wEnv wEnv [wRow] [wFBlock] ['d'] 1 ['s']).1
      ⟨wRow, List.mem_cons_self _ _, rfl, rfl, rfl⟩,
   (upsert_blocks_idempotent wEnv wEnv [] [wFBlock] ['d'] 1 ['s']).2
      [blockRecord wFBlock ['d'] ['s'] 1] rfl⟩

theorem generate_mcq_valid {env : Env} {t hint : Str} {pn : Nat} {mcq : ChatJson}
    (h : generate_mcq_for_block env t hint pn = some mcq) :
    mcq.stem.isSome = true ∧
      (∃ xs, mcq.options = some (JVal.jarr xs) ∧ xs.length = 4) ∧
      (∃ j, mcq.correct_index = some j ∧ validCorrectIndex j = true) := by
  unfold generate_mcq_for_block at h
  cases hc : env.chat t with
  | error e =>
    rw [hc] at h
    exact Option.noConfusion h
  | ok j =>
    rw [hc] at h
    have h2 : (match j.stem, j.options, j.correct_index with
      | some _, some opts, some ci =>
        match opts with
        | JVal.jarr xs =>
          if xs.length = 4 then
            if validCorrectIndex ci then some j else none
          else none
        | _ => none
      | _, _, _ => none) = some mcq := h
    clear h
    split at h2
    any_goals exact Option.noConfusion h2
    rename_i st opts ci hst hopts hci
    split at h2
    any_goals exact Option.noConfusion h2
    rename_i xs
    split at h2
    any_goals exact Option.noConfusion h2
    rename_i hlen
    split at h2
    any_goals exact Option.noConfusion h2
    rename_i hvalid
    cases h2
    exact ⟨by rw [hst]; rfl, ⟨xs, hopts, hlen⟩, ⟨ci, hci, hvalid⟩⟩

theorem compose_of_valid {mcq : ChatJson} {hint : Str} {pn : Nat}
    {st opts ci : JVal} (hst : mcq.stem = some st) (hopts : mcq.options = some opts)
    (hci : mcq.correct_index = some ci) :
    compose_question_with_reference mcq hint pn = some
      { question := pyStrOfJVal st ++
          (" (ראו: ".data ++ (composeRefTitle hint ++ [')'])),
        ref_title := composeRefTitle hint,
        ref_note := "עמ׳ ".data ++ decDigits pn,
        choices := opts,
        correct_index := ci,
        explanation := (mcq.explanation).getD (JVal.jstr []) } := by
  unfold compose_question_with_reference
  rw [hst, hopts, hci]

theorem compose_fields {mcq : ChatJson} {hint : Str} {pn : Nat} {qc : QComposed}
    (h : compose_question_with_reference mcq hint pn = some qc) :
    ∃ st opts ci, mcq.stem = some st ∧ mcq.options = some opts ∧
      mcq.correct_index = some ci ∧ qc.choices = opts ∧ qc.correct_index = ci := by
  unfold compose_question_with_reference at h
  cases hst : mcq.stem with
  | none => rw [hst] at h; cases h
  | some st =>
    rw [hst] at h
    cases hopts : mcq.options with
    | none => rw [hopts] at h; cases h
    | some opts =>
      rw [hopts] at h
      cases hci : mcq.correct_index with
      | none => rw [hci] at h; cases h
      | some ci =>
        rw [hci] at h
        cases h
        exact ⟨st, opts, ci, rfl, rfl, rfl, rfl, rfl⟩

theorem generate_some_compose {env : Env} {t hint : Str} {pn : Nat} {mcq : ChatJson}
    (h : generate_mcq_for_block env t hint pn = some mcq) :
    ∃ qc, compose_question_with_reference mcq hint pn = some qc := by
  obtain ⟨hst, ⟨xs, hopts, _⟩, ⟨n, hci, _⟩⟩ := generate_mcq_valid h
  obtain ⟨st, hst2⟩ := Option.isSome_iff_exists.mp hst
  exact ⟨_, compose_of_valid hst2 hopts hci⟩

theorem mcqLoop_err_none {env : Env} {doc hint : Str} {pn : Nat} :
    ∀ bs : List FBlock, (mcqLoop env doc hint pn bs).2.2 = none := by
  intro bs
  induction bs with
  | nil => rfl
  | cons b rest ih =>
    rw [mcqLoop]
    cases hg : generate_mcq_for_block env b.text hint pn with
    | none => simpa using ih
    | some mcq =>
      obtain ⟨qc, hqc⟩ := generate_some_compose hg
      simp only [hg, hqc]
      simpa using ih

theorem mcqLoop_events {env : Env} {doc hint : Str} {pn : Nat} :
    ∀ bs : List FBlock,
      (mcqLoop env doc hint pn bs).2.1 = bs.map (fun b => Ev.chatCall b.text) := by
  intro bs
  induction bs with
  | nil => rfl
  | cons b rest ih =>
    rw [mcqLoop]
    cases hg : generate_mcq_for_block env b.text hint pn with
    | none => simpa using ih
    | some mcq =>
      obtain ⟨qc, hqc⟩ := generate_some_compose hg
      simp only [hg, hqc]
      simpa using ih

theorem mcqLoop_mem {env : Env} {doc hint : Str} {pn : Nat} :
    ∀ {bs : List FBlock} {q : QRow}, q ∈ (mcqLoop env doc hint pn bs).1 →
      ∃ b, b ∈ bs ∧ ∃ mcq qc,
        generate_mcq_for_block env b.text hint pn = some mcq ∧
        compose_question_with_reference mcq hint pn = some qc ∧
        q = qRecord qc doc pn b.block_id (env.sha256hex b.text) := by
  intro bs
  induction bs with
  | nil => intro q hq; simp [mcqLoop] at hq
  | cons b rest ih =>
    intro q hq
    rw [mcqLoop] at hq
    cases hg : generate_mcq_for_block env b.text hint pn with
    | none =>
      rw [hg] at hq
      obtain ⟨b2, hb2, rest2⟩ := ih hq
      exact ⟨b2, List.mem_cons_of_mem b hb2, rest2⟩
    | some mcq =>
      simp only [hg] at hq
      cases hcomp : compose_question_with_reference mcq hint pn with
      | none =>
        simp only [hcomp] at hq
        simp at hq
      | some qc =>
        simp only [hcomp] at hq
        rcases List.mem_cons.mp hq with h1 | h1
        · exact ⟨b, List.mem_cons_self b rest, mcq, qc, hg, hcomp, h1⟩
        · obtain ⟨b2, hb2, rest2⟩ := ih h1
          exact ⟨b2, List.mem_cons_of_mem b hb2, rest2⟩

theorem insertQLoop_table {env : Env} :
    ∀ (qs : List QRow) (tbl : List QRow),
      ∃ pre, (insertQLoop env tbl qs).1 = tbl ++ pre ∧ ∀ q ∈ pre, q ∈ qs := by
  intro qs
  induction qs with
  | nil => intro tbl; exact ⟨[], by simp [insertQLoop], by simp⟩
  | cons q rest ih =>
    intro tbl
    rw [insertQLoop]
    cases hr : env.insertQsRes [q] with
    | error e => exact ⟨[], by simp, by simp⟩
    | ok u =>
      obtain ⟨pre, hpre, hmem⟩ := ih (tbl ++ [q])
      refine ⟨q :: pre, ?_, ?_⟩
      · simpa [List.append_assoc] using hpre
      · intro x hx
        rcases List.mem_cons.mp hx with h1 | h1
        · exact h1 ▸ List.mem_cons_self q rest
        · exact List.mem_cons_of_mem q (hmem x h1)

theorem insertQLoop_events {env : Env} :
    ∀ (qs : List QRow) (tbl : List QRow),
      ∀ ev ∈ (insertQLoop env tbl qs).2.1, ∃ i, ev = Ev.insertQCall i := by
  intro qs
  induction qs with
  | nil => intro tbl ev hev; simp [insertQLoop] at hev
  | cons q rest ih =>
    intro tbl ev hev
    rw [insertQLoop] at hev
    cases hr : env.insertQsRes [q] with
    | error e =>
      rw [hr] at hev
      rcases List.mem_cons.mp hev with h1 | h1
      · exact ⟨q.block_id, h1⟩
      · simp at h1
    | ok u =>
      rw [hr] at hev
      rcases List.mem_cons.mp hev with h1 | h1
      · exact ⟨q.block_id, h1⟩
      · exact ih (tbl ++ [q]) ev h1

theorem attachAll_mem {obs : List OBlock} {hint : Str} {embs : List Emb}
    {fb : FBlock} (h : fb ∈ attachAll obs hint embs) :
    ∃ ob, ob ∈ obs ∧ fb.block_id = ob.toBlock.block_id ∧
      fb.text = ob.toBlock.text := by
  unfold attachAll at h
  obtain ⟨p, hp, hpf⟩ := List.mem_map.mp h
  exact ⟨p.1, (List.of_mem_zip hp).1, by rw [← hpf], by rw [← hpf]⟩

theorem computeOffsetsGo_toBlock_mem {blocks : List Block} {full : Str} :
    ∀ {p : Nat} {ob : OBlock}, ob ∈ computeOffsetsGo blocks full p →
      ob.toBlock ∈ blocks := by
  induction blocks with
  | nil => intro p ob h; simp [computeOffsetsGo] at h
  | cons b rest ih =>
    intro p ob h
    cases hF : strFind full b.text p <;> rw [computeOffsetsGo, hF] at h <;>
      rcases List.mem_cons.mp h with h2 | h2
    · cases h2; exact List.mem_cons_self _ _
    · exact List.mem_cons_of_mem b (ih h2)
    · cases h2; exact List.mem_cons_self _ _
    · exact List.mem_cons_of_mem b (ih h2)

theorem pageSuitable_block {pd : PageData} {pn : Nat} {embs : List Emb}
    {fb : FBlock} (h : fb ∈ pageSuitable pd pn embs) :
    ∃ b, b ∈ pageBlocks pd pn ∧ fb.block_id = b.block_id ∧ fb.text = b.text := by
  have h2 : fb ∈ pageFBlocks pd pn embs := List.mem_of_mem_filter h
  obtain ⟨ob, hob, hid, htext⟩ := attachAll_mem h2
  exact ⟨ob.toBlock, computeOffsetsGo_toBlock_mem hob, hid, htext⟩

theorem processPage_gq_mem {env : Env} {db : DBState} {pd : PageData} {doc : Str}
    {pn : Nat} {q : QRow}
    (hq : q ∈ (processPage env db pd doc pn).db.generated_questions) :
    q ∈ db.generated_questions ∨
      ∃ embs b, b ∈ pageSuitable pd pn embs ∧ ∃ mcq qc,
        generate_mcq_for_block env b.text (pageHint pd pn) pn = some mcq ∧
        compose_question_with_reference mcq (pageHint pd pn) pn = some qc ∧
        q = qRecord qc doc pn b.block_id (env.sha256hex b.text) := by
  unfold processPage at hq
  cases hB : pageBlocks pd pn with
  | nil =>
    simp only [hB] at hq
    exact Or.inl hq
  | cons x xs =>
    simp only [hB] at hq
    cases hE : env.embed (pageTexts pd pn) with
    | error e =>
      simp only [hE] at hq
      exact Or.inl hq
    | ok embs =>
      simp only [hE] at hq
      by_cases hlen : embs.length < (pageOBlocks pd pn).length
      · rw [if_pos hlen] at hq
        exact Or.inl hq
      · rw [if_neg hlen] at hq
        cases hU : upsert_blocks env db.legal_blocks (pageFBlocks pd pn embs)
            doc pn pd.page_sha with
        | error e =>
          simp only [hU] at hq
          exact Or.inl hq
        | ok tbl2 =>
          simp only [hU, mcqLoop_err_none] at hq
          obtain ⟨pre, hpre, hmem⟩ := @insertQLoop_table env
            ((mcqLoop env doc (pageHint pd pn) pn (pageSuitable pd pn embs)).1)
            db.generated_questions
          rw [hpre] at hq
          rcases List.mem_append.mp hq with h1 | h1
          · exact Or.inl h1
          · right
            obtain ⟨b, hb, mcq, qc, hg, hcomp, heq⟩ := mcqLoop_mem (hmem q h1)
            exact ⟨embs, b, hb, mcq, qc, hg, hcomp, heq⟩

set_option maxRecDepth 4000 in
/-- C5, counterexample: the chained comparison `0 <= x < 4` of the
validation accepts non-integer floats.  With a chat output whose
`correct_index` parses to the float 3.5 (the fraction 7/2),
`generate_mcq_for_block` returns the output instead of `None`, and the
page processing stores a question carrying `correct_index` 3.5 — a value
outside the claimed range 0 to 3 inclusive (7/2 exceeds 3, since
7 > 3·2), and not an integer at all. -/
theorem mcq_validation_counterexample :
    generate_mcq_for_block wEnvF wText [] 1 = some wChatF ∧
      wChatF.correct_index = some (JVal.jnum ⟨7, 2⟩) ∧
      ((processPage wEnvF db0 wPage ['d'] 1).db.generated_questions.getD 0
          qDummy).correct_index = JVal.jnum ⟨7, 2⟩ ∧
      (3 : Int) * 2 < 7 :=
  ⟨rfl, rfl, by decide, by decide⟩

/-- C5 as amended: `generate_mcq_for_block` returns `None` unless the
parsed model output has the keys `stem`, `options` and `correct_index`,
with `options` a list of exactly 4 items and `correct_index` a value the
chained comparison `0 <= x < 4` accepts — a number (integer or float,
non-integer values such as 3.5 included) with `0 ≤ value < 4`, or a
boolean; consequently every question row stored by the page processing
(beyond the rows already in the store) has exactly 4 choices and a
`correct_index` accepted by that comparison. -/
theorem mcq_structural_validation_amended :
    (∀ (env : Env) (t hint : Str) (pn : Nat) (mcq : ChatJson),
        generate_mcq_for_block env t hint pn = some mcq →
          mcq.stem.isSome = true ∧
            (∃ xs, mcq.options = some (JVal.jarr xs) ∧ xs.length = 4) ∧
            (∃ j, mcq.correct_index = some j ∧ validCorrectIndex j = true)) ∧
      ∀ (env : Env) (db : DBState) (pd : PageData) (doc : Str) (pn : Nat) (q : QRow),
        q ∈ (processPage env db pd doc pn).db.generated_questions →
          q ∈ db.generated_questions ∨
            (∃ xs, q.choices = JVal.jarr xs ∧ xs.length = 4) ∧
              validCorrectIndex q.correct_index = true := by
  constructor
  · intro env t hint pn mcq h
    exact generate_mcq_valid h
  · intro env db pd doc pn q hq
    rcases processPage_gq_mem hq with h | ⟨embs, b, hb, mcq, qc, hg, hcomp, heq⟩
    · exact Or.inl h
    · right
      obtain ⟨hst, ⟨xs, hopts, hlen⟩, ⟨j, hci, hvalid⟩⟩ := generate_mcq_valid hg
      obtain ⟨st2, opts2, ci2, hst2, hopts2, hci2, hch, hcidx⟩ := compose_fields hcomp
      have hopts3 : opts2 = JVal.jarr xs :=
        Option.some.inj (hopts2.symm.trans hopts)
      have hci3 : ci2 = j := Option.some.inj (hci2.symm.trans hci)
      subst heq
      refine ⟨⟨xs, ?_, hlen⟩, ?_⟩
      · show qc.choices = JVal.jarr xs
        rw [hch, hopts3]
      · show validCorrectIndex qc.correct_index = true
        rw [hcidx, hci3]
        exact hvalid

set_option maxRecDepth 4000 in
/-- Witness for `mcq_structural_validation_amended`: a concrete run that
stores a question. -/
theorem mcq_structural_validation_amended_witness :
    ((processPage wEnv2 db0 wPage ['d'] 1).db.generated_questions.getD 0 qDummy) ∈
        db0.generated_questions ∨
      (∃ xs,
          ((processPage wEnv2 db0 wPage ['d'] 1).db.generated_questions.getD 0
                qDummy).choices = JVal.jarr xs ∧ xs.length = 4) ∧
        validCorrectIndex
          ((processPage wEnv2 db0 wPage ['d'] 1).db.generated_questions.getD 0
            qDummy).correct_index = true :=
  mcq_structural_validation_amended.2 wEnv2 db0 wPage ['d'] 1 _ (by decide)

theorem pageBlocks_id_inj {pd : PageData} {pn : Nat} {b b2 : Block}
    (hb : b ∈ pageBlocks pd pn) (hb2 : b2 ∈ pageBlocks pd pn)
    (h : b2.block_id = b.block_id) : b2 = b :=
  List.inj_on_of_nodup_map (extract_page_blocks_ids_nodup pd.rawBlocks pn)
    hb2 hb h

/-- C6: every question row stored by the page processing (beyond the rows
already in the store) is derived from exactly one extracted block: some
block of the page carries its `block_id`, its `source_block_sha` is the
hash of that block's text, and no other extracted block of the page has
that `block_id`. -/
theorem question_provenance :
    ∀ (env : Env) (db : DBState) (pd : PageData) (doc : Str) (pn : Nat) (q : QRow),
      q ∈ (processPage env db pd doc pn).db.generated_questions →
        q ∈ db.generated_questions ∨
          ∃ b, b ∈ pageBlocks pd pn ∧ q.block_id = b.block_id ∧
            q.source_block_sha = env.sha256hex b.text ∧
            ∀ b2, b2 ∈ pageBlocks pd pn → b2.block_id = b.block_id → b2 = b := by
  intro env db pd doc pn q hq
  rcases processPage_gq_mem hq with h | ⟨embs, fb, hfb, mcq, qc, hg, hcomp, heq⟩
  · exact Or.inl h
  · right
    obtain ⟨b, hbmem, hid, htext⟩ := pageSuitable_block hfb
    subst heq
    refine ⟨b, hbmem, ?_, ?_, fun b2 hb2 hid2 => pageBlocks_id_inj hbmem hb2 hid2⟩
    · show fb.block_id = b.block_id
      exact hid
    · show env.sha256hex fb.text = env.sha256hex b.text
      rw [htext]

set_option maxRecDepth 4000 in
/-- Witness for `question_provenance`: the concrete stored question of
the witness run is tied to the unique extracted block. -/
theorem question_provenance_witness :
    ((processPage wEnv2 db0 wPage ['d'] 1).db.generated_questions.getD 0 qDummy) ∈
        db0.generated_questions ∨
      ∃ b, b ∈ pageBlocks wPage 1 ∧
        ((processPage wEnv2 db0 wPage ['d'] 1).db.generated_questions.getD 0
            qDummy).block_id = b.block_id ∧
        ((processPage wEnv2 db0 wPage ['d'] 1).db.generated_questions.getD 0
            qDummy).source_block_sha = wEnv2.sha256hex b.text ∧
        ∀ b2, b2 ∈ pageBlocks wPage 1 → b2.block_id = b.block_id → b2 = b :=
  question_provenance wEnv2 db0 wPage ['d'] 1 _ (by decide)

theorem generate_mcq_chat_error {env : Env} {t hint : Str} {pn : Nat} {e : Err}
    (h : env.chat t = Except.error e) :
    generate_mcq_for_block env t hint pn = none := by
  unfold generate_mcq_for_block
  rw [h]

theorem processPage_embed_error {env : Env} {db : DBState} {pd : PageData}
    {doc : Str} {pn : Nat} {e : Err} (hb : pageBlocks pd pn ≠ [])
    (he : env.embed (pageTexts pd pn) = Except.error e) :
    processPage env db pd doc pn = ⟨db, some e, [Ev.embedCall (pageTexts pd pn)]⟩ := by
  unfold processPage
  cases hB : pageBlocks pd pn with
  | nil => exact absurd hB hb
  | cons x xs => simp only [hB, he]

theorem processPage_upsert_error {env : Env} {db : DBState} {pd : PageData}
    {doc : Str} {pn : Nat} {embs : List Emb} {e : Err}
    (hb : pageBlocks pd pn ≠ [])
    (he : env.embed (pageTexts pd pn) = Except.ok embs)
    (hlen : ¬ embs.length < (pageOBlocks pd pn).length)
    (hup : upsert_blocks env db.legal_blocks (pageFBlocks pd pn embs) doc pn
        pd.page_sha = Except.error e) :
    processPage env db pd doc pn =
      ⟨db, some e, [Ev.embedCall (pageTexts pd pn), Ev.upsertCall]⟩ := by
  unfold processPage
  cases hB : pageBlocks pd pn with
  | nil => exact absurd hB hb
  | cons x xs => simp only [hB, he, if_neg hlen, hup]

theorem insertQLoop_head_error {env : Env} {tbl : List QRow} {q : QRow}
    {rest : List QRow} {e : Err} (h : env.insertQsRes [q] = Except.error e) :
    insertQLoop env tbl (q :: rest) = (tbl, [Ev.insertQCall q.block_id], some e) := by
  rw [insertQLoop, h]

theorem ingest_outcomes_length (env : Env) (doc : Str) :
    ∀ (pages : List (Nat × PageData)) (db : DBState),
      (ingest env doc db pages).2.length = pages.length := by
  intro pages
  induction pages with
  | nil => intro db; rfl
  | cons pp rest ih =>
    intro db
    cases pp with
    | mk pn pd => simp [ingest, ih]

set_option maxRecDepth 4000 in
/-- C4, counterexample: in a run whose chat oracle always raises, the
chat call is made for the suitable block of the page (it appears in the
trace) and yet the page finishes without a page-level error: the
exception of the chat-completion stage was recovered inside
`generate_mcq_for_block`, below the per-page handler, contradicting the
claim that no stage other than the page level recovers from a failure. -/
theorem per_page_recovery_counterexample :
    wEnv.chat wText = Except.error ⟨2⟩ ∧
      Ev.chatCall wText ∈ (processPage wEnv db0 wPage ['d'] 1).trace ∧
      (processPage wEnv db0 wPage ['d'] 1).err = none :=
  ⟨rfl, by decide, by decide⟩

/-- C4 as amended: any exception is caught at the page level and the page
loop continues — with one additional recovery below the page level:
`generate_mcq_for_block` catches an exception of the chat-completion call
and returns `None`, so only that block's question is skipped.  The
embedding call and the database inserts do not recover: their exceptions
abort the page (reaching the page-level handler), and the page loop
records one outcome per page, continuing past failed pages. -/
theorem failure_handling_amended :
    (∀ (env : Env) (t hint : Str) (pn : Nat) (e : Err),
        env.chat t = Except.error e →
          generate_mcq_for_block env t hint pn = none) ∧
      (∀ (env : Env) (db : DBState) (pd : PageData) (doc : Str) (pn : Nat) (e : Err),
        pageBlocks pd pn ≠ [] →
        env.embed (pageTexts pd pn) = Except.error e →
          processPage env db pd doc pn =
            ⟨db, some e, [Ev.embedCall (pageTexts pd pn)]⟩) ∧
      (∀ (env : Env) (db : DBState) (pd : PageData) (doc : Str) (pn : Nat)
          (embs : List Emb) (e : Err),
        pageBlocks pd pn ≠ [] →
        env.embed (pageTexts pd pn) = Except.ok embs →
        ¬ embs.length < (pageOBlocks pd pn).length →
        upsert_blocks env db.legal_blocks (pageFBlocks pd pn embs) doc pn
            pd.page_sha = Except.error e →
          processPage env db pd doc pn =
            ⟨db, some e, [Ev.embedCall (pageTexts pd pn), Ev.upsertCall]⟩) ∧
      (∀ (env : Env) (tbl : List QRow) (q : QRow) (rest : List QRow) (e : Err),
        env.insertQsRes [q] = Except.error e →
          insertQLoop env tbl (q :: rest) =
            (tbl, [Ev.insertQCall q.block_id], some e)) ∧
      (∀ (env : Env) (doc : Str) (pages : List (Nat × PageData)) (db : DBState),
        (ingest env doc db pages).2.length = pages.length) :=
  ⟨fun _ _ _ _ _ h => generate_mcq_chat_error h,
   fun _ _ _ _ _ _ hb he => processPage_embed_error hb he,
   fun _ _ _ _ _ _ _ hb he hlen hup => processPage_upsert_error hb he hlen hup,
   fun _ _ _ _ _ h => insertQLoop_head_error h,
   fun env doc pages db => ingest_outcomes_length env doc pages db⟩





set_option maxRecDepth 4000 in
/-- Witness for `failure_handling_amended` at concrete environments in
which each stage fails. -/
theorem failure_handling_amended_witness :
    generate_mcq_for_block wEnv wText [] 1 = none ∧
      processPage wEnv3 db0 wPage ['d'] 1 =
        ⟨db0, some ⟨3⟩, [Ev.embedCall (pageTexts wPage 1)]⟩ ∧
      processPage wEnv4 db0 wPage ['d'] 1 =
        ⟨db0, some ⟨4⟩, [Ev.embedCall (pageTexts wPage 1), Ev.upsertCall]⟩ ∧
      insertQLoop wEnv5 [] [qDummy] =
        ([], [Ev.insertQCall qDummy.block_id], some ⟨5⟩) ∧
      (ingest wEnv ['d'] db0 [(1, wPage)]).2.length = 1 :=
  ⟨failure_handling_amended.1 wEnv wText [] 1 ⟨2⟩ rfl,
   failure_handling_amended.2.1 wEnv3 db0 wPage ['d'] 1 ⟨3⟩ (by decide) rfl,
   failure_handling_amended.2.2.1 wEnv4 db0 wPage ['d'] 1 wEmbs ⟨4⟩
     (by decide) rfl (by decide) rfl,
   failure_handling_amended.2.2.2.1 wEnv5 [] qDummy [] ⟨5⟩ rfl,
   failure_handling_amended.2.2.2.2 wEnv ['d'] [(1, wPage)] db0⟩

/-- C7: for a page with blocks whose embedding call succeeds with enough
vectors and whose upsert succeeds, the external calls happen in the fixed
single-pass order: the embedding call first, then the block upsert, then
one chat call per suitable block (all MCQs generated), and only then the
question inserts.  The earlier stages (extraction, offsets, section hint)
are the pure computations feeding these calls, in that dataflow order. -/
theorem page_stage_order :
    ∀ (env : Env) (db : DBState) (pd : PageData) (doc : Str) (pn : Nat)
      (embs : List Emb) (tbl2 : List BlockRow),
      pageBlocks pd pn ≠ [] →
      env.embed (pageTexts pd pn) = Except.ok embs →
      ¬ embs.length < (pageOBlocks pd pn).length →
      upsert_blocks env db.legal_blocks (pageFBlocks pd pn embs) doc pn
          pd.page_sha = Except.ok tbl2 →
      ∃ ievs, (processPage env db pd doc pn).trace =
          Ev.embedCall (pageTexts pd pn) :: Ev.upsertCall ::
            ((pageSuitable pd pn embs).map (fun b => Ev.chatCall b.text) ++ ievs) ∧
          ∀ ev ∈ ievs, ∃ i, ev = Ev.insertQCall i := by
  intro env db pd doc pn embs tbl2 hb he hlen hup
  unfold processPage
  cases hB : pageBlocks pd pn with
  | nil => exact absurd hB hb
  | cons x xs =>
    simp only [hB, he, if_neg hlen, hup, mcqLoop_err_none]
    refine ⟨(insertQLoop env db.generated_questions
        (mcqLoop env doc (pageHint pd pn) pn (pageSuitable pd pn embs)).1).2.1,
      ?_, ?_⟩
    · rw [mcqLoop_events]
    · exact insertQLoop_events _ _

set_option maxRecDepth 4000 in
/-- Witness for `page_stage_order` at the concrete witness run. -/
theorem page_stage_order_witness :
    ∃ ievs, (processPage wEnv2 db0 wPage ['d'] 1).trace =
        Ev.embedCall (pageTexts wPage 1) :: Ev.upsertCall ::
          ((pageSuitable wPage 1 wEmbs).map (fun b => Ev.chatCall b.text) ++ ievs) ∧
        ∀ ev ∈ ievs, ∃ i, ev = Ev.insertQCall i :=
  page_stage_order wEnv2 db0 wPage ['d'] 1 wEmbs
    ((pageFBlocks wPage 1 wEmbs).map (fun b => blockRecord b ['d'] ['s'] 1))
    (by decide) rfl (by decide) rfl
